import Mathlib

/-!
# Verification of the spyscraper crawl/score/trim/evidence pipeline

A shallow embedding, in Lean 4, of the parts of the `spyscraper` repository
that the frozen claims are about:

* `ci/crawl.py` : URL canonicalization, domain scoping, the breadth-first
  crawl loop (`crawl_site`) and page-record assembly (`fetch_record`);
* `ci/fetch.py` : the `FetchResult` data model and `needs_browser`;
* `ci/score.py` : lexical term scoring and `score_page`;
* `ci/trim.py`  : paragraph splitting/scoring, snippet ranking and the
  keep-list file;
* `ci/evidence.py` : the evidence-pack assembler;
* `ci/summarize_xlsx_openai.py` : the retrying LLM-call wrapper.

Modelling conventions:

* Python strings are `String` (sequences of Unicode code points; `len` is
  `String.length`).  Character-class helpers (`str.strip`, `\s`, `str.lower`)
  are modelled over the ASCII range, which is what every claim exercises.
* Python floats are modelled as rationals (`ℚ`).  All arithmetic performed by
  the scoring code is sums of the literal weights 1.0 / 1.2 / 1.4 / 1.8 and
  comparisons against small integers, where rational and IEEE semantics agree
  on every comparison the code makes.
* `urllib.parse.urlparse` is modelled after CPython's `urlsplit` (≥ 3.10):
  the input is left-stripped of C0-control/space characters, the bytes
  `\t\r\n` are removed, the scheme is split at the first `:` when the prefix
  is a valid scheme, a `//`-led netloc runs up to the first `/?#`, the
  fragment is split at the first `#`, the query at the first `?`, and
  `urlparse` additionally splits `;params` off the last path segment.
  The `ValueError` raised for a netloc with unbalanced brackets is modelled
  by returning `none` (CPython ≥ 3.11 validates bracketed hosts further;
  no claim exercises bracketed hosts).
* Functions that can raise return `Option`; callers propagate `none`
  exactly where the Python code would propagate the exception.
* External effects (HTTP fetches, the browser, the OpenAI endpoint, the
  clock inside `freshness_hint`, `random.uniform` jitter) are passed in as
  explicit oracle functions.
-/

/-! ## Python character classes and basic string helpers -/

/-- The ASCII characters matched by Python's `str.strip()` / regex `\s`. -/
def isPySpace (c : Char) : Bool :=
  c = ' ' || c = '\t' || c = '\n' || c = '\r' || c = '\x0b' || c = '\x0c'

/-- `startsWithL pre l` : `l` starts with `pre` (Python `str.startswith`). -/
def startsWithL : List Char → List Char → Bool
  | [], _ => true
  | _ :: _, [] => false
  | p :: ps, c :: cs => p = c && startsWithL ps cs

/-- `endsWithL suf l` : `l` ends with `suf` (Python `str.endswith`). -/
def endsWithL (suf l : List Char) : Bool :=
  startsWithL suf.reverse l.reverse

/-- Python `needle in hay` substring test, on character lists. -/
def containsL (needle : List Char) : List Char → Bool
  | [] => needle.isEmpty
  | c :: t => startsWithL needle (c :: t) || containsL needle t

/-- Python `str.strip()` (ASCII whitespace model). -/
def pyStrip (s : String) : String :=
  ⟨((s.data.dropWhile isPySpace).reverse.dropWhile isPySpace).reverse⟩

/-! ## `urllib.parse.urlparse` model -/

/-- Result of `urllib.parse.urlparse`. -/
structure UrlParts where
  scheme : String
  netloc : String
  path : String
  params : String
  query : String
  fragment : String
deriving DecidableEq, Repr

/-- CPython `urlsplit` removes `\t`, `\r`, `\n` anywhere in the URL. -/
def removeUnsafe (l : List Char) : List Char :=
  l.filter (fun c => !(c = '\t' || c = '\r' || c = '\n'))

/-- CPython `urlsplit` left-strips C0-control and space characters. -/
def lstripControl (l : List Char) : List Char :=
  l.dropWhile (fun c => c.toNat ≤ 0x20)

/-- Characters allowed in a URL scheme (`scheme_chars`). -/
def isSchemeChar (c : Char) : Bool :=
  c.isAlphanum || c = '+' || c = '-' || c = '.'

/-- Head of the list is an ASCII letter (`url[0].isascii() and url[0].isalpha()`). -/
def headIsAlpha : List Char → Bool
  | [] => false
  | c :: _ => c.isAlpha

/-- Split the scheme at the first `:` when the prefix is a valid scheme;
the scheme is lowercased.  Returns `(scheme, rest)` (scheme `[]` if none). -/
def splitSchemeL (l : List Char) : List Char × List Char :=
  let pre := l.takeWhile (· ≠ ':')
  if pre.length < l.length && !pre.isEmpty && headIsAlpha pre && pre.all isSchemeChar then
    (pre.map Char.toLower, l.drop (pre.length + 1))
  else
    ([], l)

/-- A character that does not terminate the netloc. -/
def notDelim (c : Char) : Bool :=
  !(c = '/' || c = '?' || c = '#')

/-- Split the netloc after a leading `//`; `none` models the `ValueError`
CPython raises for unbalanced `[`/`]` in the netloc. -/
def splitNetlocL (l : List Char) : Option (List Char × List Char) :=
  if l.take 2 = ['/', '/'] then
    let nl := (l.drop 2).takeWhile notDelim
    let rest := (l.drop 2).dropWhile notDelim
    if (nl.contains '[' && !nl.contains ']') || (nl.contains ']' && !nl.contains '[') then
      none
    else
      some (nl, rest)
  else
    some ([], l)

/-- Python `url.split(sep, 1)`; when `sep` is absent the second part is `[]`. -/
def splitFirstL (sep : Char) (l : List Char) : List Char × List Char :=
  (l.takeWhile (· ≠ sep), (l.dropWhile (· ≠ sep)).drop 1)

/-- `urllib.parse._splitparams`: split `;params` off the last path segment. -/
def splitParamsL (l : List Char) : List Char × List Char :=
  if l.contains ';' then
    if l.contains '/' then
      let b := (l.reverse.takeWhile (· ≠ '/')).reverse
      let a := l.take (l.length - b.length)
      if b.contains ';' then
        (a ++ b.takeWhile (· ≠ ';'), (b.dropWhile (· ≠ ';')).drop 1)
      else
        (l, [])
    else
      (l.takeWhile (· ≠ ';'), (l.dropWhile (· ≠ ';')).drop 1)
  else
    (l, [])

/-- The netloc/fragment/query/params stages of `urlparse`, applied to the
input after scheme removal. -/
def parseAfterScheme (sch : List Char) (rest : List Char) : Option UrlParts :=
  match splitNetlocL rest with
  | none => none
  | some (nl, rest2) =>
    let (noFrag, frag) := splitFirstL '#' rest2
    let (pathq, query) := splitFirstL '?' noFrag
    let (pathp, params) := splitParamsL pathq
    some ⟨⟨sch⟩, ⟨nl⟩, ⟨pathp⟩, ⟨params⟩, ⟨query⟩, ⟨frag⟩⟩

/-- Model of `urllib.parse.urlparse` (see module docstring for fidelity notes). -/
def pyUrlparse (s : String) : Option UrlParts :=
  let l := removeUnsafe (lstripControl s.data)
  let (sch, rest) := splitSchemeL l
  parseAfterScheme sch rest

/-! ## `ci/crawl.py` : URL + domain helpers -/

/-- Does the stripped URL already carry an `http(s)://` scheme? -/
def hasHttpScheme (u : String) : Bool :=
  startsWithL "http://".data u.data || startsWithL "https://".data u.data

/-- The URL `canonicalize` actually parses: stripped, with `https://`
prepended when no `http(s)://` prefix is present. -/
def ensureScheme (u : String) : String :=
  if hasHttpScheme u then u else ⟨"https://".data ++ u.data⟩

/-- `ci/crawl.py::canonicalize`.  `none` models the propagated `ValueError`
from `urlparse` on unbalanced brackets. -/
def canonicalize (url : String) : Option String :=
  let u := ensureScheme (pyStrip url)
  match pyUrlparse u with
  | none => none
  | some p =>
    let url1 : List Char := p.scheme.data ++ "://".data ++ p.netloc.data ++ p.path.data
    if url1.getLast? = some '/' && p.path ≠ "/" then
      some ⟨url1.dropLast⟩
    else
      some ⟨url1⟩

/-- `ci/crawl.py::base_domain`: lowercase, strip a leading `www.`. -/
def base_domain (netloc : String) : String :=
  let n := netloc.data.map Char.toLower
  if startsWithL "www.".data n then ⟨n.drop 4⟩ else ⟨n⟩

/-- `ci/crawl.py::allowed_netloc`. -/
def allowed_netloc (netloc allowedBase : String) (includeSubdomains : Bool) : Bool :=
  let n := base_domain netloc
  if n = allowedBase then true
  else if includeSubdomains && endsWithL ("." ++ allowedBase).data n.data then true
  else false

/-! ## `ci/fetch.py` : data model and `needs_browser` -/

/-- `ci/fetch.py::FetchResult`. -/
structure FetchResult where
  url : String
  status : Int
  content_type : String
  html : String
  text : String
  text_md : String
  links : List String
  links_count : Nat
deriving DecidableEq, Repr

/-- `ci/fetch.py::needs_browser` (defaults in the source: `min_links=10`,
`min_text_chars=800`). -/
def needs_browser (r : FetchResult) (min_links min_text_chars : Nat) : Bool :=
  if r.links_count < min_links then true
  else if r.text_md.length < min_text_chars then true
  else false

/-- Python `a or b` on strings (`""` is falsy; `None` is modelled as `""`). -/
def pyOr (a b : String) : String := if a = "" then b else a

/-- The record written to `pages.jsonl` (a `FetchResult` dict after the
mutations in `fetch_record`; `html` is popped). -/
structure PageRec where
  url : String
  final_url : String
  status : Int
  content_type : String
  text : String
  text_md : String
  text_plain : String
  links : List String
  links_count : Nat
  text_len : Nat
deriving DecidableEq, Repr

/-- `ci/crawl.py::fetch_record`, applied to the `FetchResult` that the
HTTP-then-maybe-rendered fetch logic produced (that fetch is external I/O and
is supplied by an oracle in the crawl model).  Mirrors lines 64-77:
`rec["text"]` is overwritten with `text_md or text or ""` *before*
`rec["text_plain"]` is read from it; `text_len` is the length of the
overwritten `text`.  `none` models the `ValueError` propagating out of
`canonicalize(r.url)`. -/
def fetch_record (requested : String) (r : FetchResult) : Option PageRec :=
  match canonicalize r.url with
  | none => none
  | some finalUrl =>
    let text := pyOr r.text_md (pyOr r.text "")
    some { url := requested
           final_url := finalUrl
           status := r.status
           content_type := r.content_type
           text := text
           text_md := r.text_md
           text_plain := pyOr text ""
           links := r.links
           links_count := r.links_count
           text_len := text.length }

/-! ## `ci/score.py` -/

def CAPABILITY_TERMS : List String :=
  ["platform", "api", "sdk", "integration", "webhook", "dashboard",
   "rules", "model", "ml", "machine learning", "graph", "signals",
   "decision", "decisioning", "risk engine", "case management",
   "fraud", "scam", "chargeback", "ato", "account takeover",
   "identity", "kyc", "kyb", "aml", "ofac", "pep", "watchlist",
   "device", "fingerprint", "behavior", "biometrics", "vpn", "proxy",
   "use case", "solution", "segment", "industry", "customer", "pricing",
   "latency", "accuracy", "coverage", "false positive"]

def FLUFF_TERMS : List String :=
  ["in this article", "table of contents", "newsletter", "subscribe",
   "thought leadership", "what is", "why it matters", "future of",
   "introduction", "definitions"]

def ENGINEERING_SIGNALS : List String :=
  ["engineering", "architecture", "latency", "pipeline", "deployment",
   "feature store", "model training", "inference", "distributed",
   "postgres", "kafka", "graphql", "rest", "grpc"]

/-- `re.sub(r"\s+", " ", l)`: collapse every whitespace run to one space.
The boolean argument records a pending (not yet emitted) whitespace run. -/
def collapseWsAux : List Char → Bool → List Char
  | [], pending => if pending then [' '] else []
  | c :: rest, pending =>
    if isPySpace c then collapseWsAux rest true
    else if pending then ' ' :: c :: collapseWsAux rest false
    else c :: collapseWsAux rest false

/-- `ci/score.py::tokenize`: whitespace-collapse, strip, lowercase. -/
def tokenize (s : String) : String :=
  ⟨(pyStrip ⟨collapseWsAux s.data false⟩).data.map Char.toLower⟩

/-- `ci/score.py::term_score`: `weight` per distinct term occurring as a
substring of the tokenized text. -/
def term_score (text : String) (terms : List String) (weight : ℚ) : ℚ :=
  let t := tokenize text
  terms.foldl (fun score term => if containsL term.data t.data then score + weight else score) 0

/-- `ci/score.py::path`: `urlparse(url).path or "/"`.  `none` models the
`ValueError` from `urlparse`. -/
def path (url : String) : Option String :=
  (pyUrlparse url).map (fun p => if p.path = "" then "/" else p.path)

/-- `ci/score.py::is_blog`. -/
def is_blog (url : String) : Option Bool :=
  (path url).map (fun pa => startsWithL "/blog".data pa.data || containsL "/blog/".data pa.data)

/-- `ci/score.py::PageScores` (same field order as the dataclass). -/
structure PageScores where
  capability : ℚ
  fluff : ℚ
  engineering : ℚ
  freshness : ℚ
  total : ℚ
  keep : Bool
deriving DecidableEq, Repr

/-- `ci/score.py::score_page`.  `freshness_hint` reads the system clock
(`datetime.now()`), so it is supplied as the oracle `fresh`; it raises inside
`score_page` exactly when `urlparse(url)` raises, which is the same condition
under which `is_blog url = none`, so `none` faithfully models the propagated
exception. -/
def score_page (fresh : String → ℚ) (url title : String) (headings : List String)
    (text : String) : Option PageScores :=
  let blob := String.intercalate " | " [title, String.intercalate " " headings, text]
  let cap := term_score blob CAPABILITY_TERMS 1
  let eng := term_score blob ENGINEERING_SIGNALS 1.2
  let fluff := term_score blob FLUFF_TERMS 1
  match is_blog url with
  | none => none
  | some blog =>
    let fr := fresh url
    let total0 := (cap + eng) - (1.2 * fluff)
    let total := if blog then total0 * (0.7 + 0.6 * fr) else total0
    let keep := if blog then decide (2 ≤ cap + eng) && decide (fluff ≤ 4) else true
    some ⟨cap, fluff, eng, fr, total, keep⟩

/-! ## `ci/trim.py` -/

/-- One splitting step for `re.split(r"\n{2,}|\r\n\r\n+", text)`: at each
position the regex first tries a maximal run of two-or-more `\n`, then
`\r\n\r\n` followed by further `\n`s.  `acc` is the current chunk, reversed.
Structural recursion on fuel keeps the definition kernel-reducible; every
step consumes at least one character, so `l.length + 1` fuel is exact. -/
def splitChunksF : Nat → List Char → List Char → List (List Char)
  | 0, l, acc => [acc.reverse ++ l]
  | _, [], acc => [acc.reverse]
  | fuel + 1, c :: rest, acc =>
    if c = '\n' && rest.head? = some '\n' then
      acc.reverse :: splitChunksF fuel (rest.dropWhile (· = '\n')) []
    else if c = '\r' && startsWithL "\n\r\n".data rest then
      acc.reverse :: splitChunksF fuel ((rest.drop 3).dropWhile (· = '\n')) []
    else
      splitChunksF fuel rest (c :: acc)

/-- `ci/trim.py::split_paragraphs`: split on blank-line-ish separators,
whitespace-normalize, keep chunks of length ≥ 80. -/
def split_paragraphs (text : String) : List String :=
  let raw := splitChunksF (text.data.length + 1) text.data []
  (raw.map (fun chunk => pyStrip ⟨collapseWsAux chunk false⟩)).filter (fun pa => 80 ≤ pa.length)

/-- `ci/trim.py::score_paragraph`: fluff weight 1.4, no freshness factor. -/
def score_paragraph (p : String) : ℚ :=
  term_score p CAPABILITY_TERMS 1 + term_score p ENGINEERING_SIGNALS 1.2
    - 1.4 * term_score p FLUFF_TERMS 1

/-- Stable insert for a descending sort by a rational key: the inserted
element goes after every strictly greater element and before ties. -/
def insertDescBy {α : Type} (key : α → ℚ) (x : α) : List α → List α
  | [] => [x]
  | y :: ys => if key x < key y then y :: insertDescBy key x ys else x :: y :: ys

/-- Python's stable `list.sort(key=..., reverse=True)`: any stable descending
sort produces the same list, modelled here by stable insertion sort. -/
def pySortDescBy {α : Type} (key : α → ℚ) : List α → List α
  | [] => []
  | x :: xs => insertDescBy key x (pySortDescBy key xs)

/-- A snippet record written to `snippets.jsonl`. -/
structure Snippet where
  url : String
  title : String
  rank : Nat
  score : ℚ
  text : String
deriving DecidableEq, Repr

/-- The per-record snippet block of `ci/trim.py::build_snippets` lines 89-100:
score paragraphs, sort descending by score (stable), truncate to `top_k`,
and emit 1-based ranks via `enumerate(..., start=1)`. -/
def page_snippets (url title text : String) (top_k : Nat) : List Snippet :=
  let paras := split_paragraphs text
  let scored := paras.map (fun pa => (score_paragraph pa, pa))
  let sorted := pySortDescBy Prod.fst scored
  ((sorted.take top_k).enumFrom 1).map (fun it => ⟨url, title, it.1, it.2.1, it.2.2⟩)

/-- The fields of a `pages.jsonl` record that `build_snippets` reads. -/
structure PageLogRec where
  url : String
  final_url : String
  title : String
  headings : List String
  text : String
deriving DecidableEq, Repr

/-- A `pages_scored.jsonl` record: the input record merged with the scores. -/
structure ScoredRec where
  page : PageLogRec
  scores : PageScores
deriving DecidableEq, Repr

/-- Accumulated outputs of `build_snippets`. -/
structure TrimOutput where
  snippets : List Snippet
  pages_scored : List ScoredRec
  keep_urls : List String
deriving DecidableEq, Repr

/-- The per-record loop of `ci/trim.py::build_snippets` lines 72-103.
`none` models an exception escaping the loop (only `score_page` can raise). -/
def buildSnippetsAux (fresh : String → ℚ) (top_k : Nat) :
    List PageLogRec → TrimOutput → Option TrimOutput
  | [], acc => some acc
  | r :: rest, acc =>
    let url := pyOr r.final_url (pyOr r.url "")
    match score_page fresh url r.title r.headings r.text with
    | none => none
    | some ps =>
      buildSnippetsAux fresh top_k rest
        { snippets := acc.snippets ++ page_snippets url r.title r.text top_k
          pages_scored := acc.pages_scored ++ [⟨r, ps⟩]
          keep_urls := acc.keep_urls ++ (if ps.keep then [url] else []) }

/-- `ci/trim.py::build_snippets` over already-parsed `pages.jsonl` records. -/
def build_snippets (fresh : String → ℚ) (recs : List PageLogRec) (top_k : Nat) :
    Option TrimOutput :=
  buildSnippetsAux fresh top_k recs ⟨[], [], []⟩

/-- Python string `<`: lexicographic comparison of code-point sequences
(shorter strict prefix compares less). -/
def pyStrLtL : List Char → List Char → Bool
  | [], [] => false
  | [], _ :: _ => true
  | _ :: _, [] => false
  | a :: as, b :: bs => if a = b then pyStrLtL as bs else decide (a < b)

/-- Python `a < b` on strings. -/
def pyStrLt (a b : String) : Bool := pyStrLtL a.data b.data

/-- Stable insert for `sorted` on strings (ascending). -/
def insertStr (x : String) : List String → List String
  | [] => [x]
  | y :: ys => if pyStrLt y x then y :: insertStr x ys else x :: y :: ys

/-- Python `sorted` on strings (ascending code-point lexicographic order). -/
def pySortStr : List String → List String
  | [] => []
  | x :: xs => insertStr x (pySortStr xs)

/-- The content written to `out/keep_urls.txt` (line 112):
`"\n".join(sorted(set(keep_urls))) + ("\n" if keep_urls else "")`.
The file itself is created empty up-front (line 64), so it exists even when
no URL is kept.  `set(keep_urls)` is modelled by `List.dedup` (which set of
representatives is taken is irrelevant after sorting). -/
def keep_file_content (keep_urls : List String) : String :=
  String.intercalate "\n" (pySortStr keep_urls.dedup)
    ++ (if keep_urls.isEmpty then "" else "\n")

/-! ## `ci/evidence.py` -/

/-- The fields of a `pages_scored.jsonl` record that `build_evidence_packs`
reads. -/
structure ScoredPageIn where
  url : String
  final_url : String
  title : String
  meta_description : String
  h1 : List String
  headings : List String
  jsonld_types : List String
  capability : ℚ
  engineering : ℚ
  fluff : ℚ
  freshness : ℚ
  total : ℚ
  keep : Bool
  text : String
  text_md : String
deriving DecidableEq, Repr

/-- A `snippets.jsonl` record as read by `build_evidence_packs`
(`rank = 0` plays the falsy `None`/`0` that the sort key maps to 9999). -/
structure SnipIn where
  url : String
  rank : Nat
  score : ℚ
  text : String
deriving DecidableEq, Repr

/-- The trimmed snippet dict `{"rank": .., "score": .., "text": ..}`. -/
structure EvSnip where
  rank : Nat
  score : ℚ
  text : String
deriving DecidableEq, Repr

/-- The scores block of an evidence pack. -/
structure EvScores where
  capability : ℚ
  engineering : ℚ
  fluff : ℚ
  freshness : ℚ
  total : ℚ
  keep : Bool
deriving DecidableEq, Repr

/-- One evidence pack (a line of `evidence_packs.jsonl`). -/
structure EvidencePack where
  url : String
  title : String
  meta_description : String
  h1 : List String
  headings : List String
  jsonld_types : List String
  page_scores : EvScores
  full_text : String
  snippets : List EvSnip
deriving DecidableEq, Repr

/-- Python-dict insertion: overwriting an existing key keeps its position,
a fresh key is appended (insertion order is preserved, as in CPython). -/
def dictInsert {α : Type} (d : List (String × α)) (k : String) (v : α) : List (String × α) :=
  if d.any (fun kv => kv.1 = k) then
    d.map (fun kv => if kv.1 = k then (k, v) else kv)
  else
    d ++ [(k, v)]

/-- `defaultdict(list)` append: extend the group of `k`, creating it at the
end on first use. -/
def groupAdd {α : Type} (d : List (String × List α)) (k : String) (v : α) :
    List (String × List α) :=
  if d.any (fun kv => kv.1 = k) then
    d.map (fun kv => if kv.1 = k then (kv.1, kv.2 ++ [v]) else kv)
  else
    d ++ [(k, [v])]

/-- `dict.get` on the association-list model. -/
def dictGet {α : Type} (d : List (String × α)) (k : String) : Option α :=
  (d.find? (fun kv => kv.1 = k)).map (fun kv => kv.2)

/-- Strict lexicographic comparison on a `(ℚ, Nat)` Python sort key. -/
def lexLtQN (a b : ℚ × Nat) : Bool :=
  decide (a.1 < b.1) || (decide (a.1 = b.1) && decide (a.2 < b.2))

/-- Stable insert for an ascending sort by a `(ℚ, Nat)` key. -/
def insertAscBy {α : Type} (key : α → ℚ × Nat) (x : α) : List α → List α
  | [] => [x]
  | y :: ys => if lexLtQN (key y) (key x) then y :: insertAscBy key x ys else x :: y :: ys

/-- Python's stable `list.sort(key=...)` for a `(ℚ, Nat)` key. -/
def pySortAscBy {α : Type} (key : α → ℚ × Nat) : List α → List α
  | [] => []
  | x :: xs => insertAscBy key x (pySortAscBy key xs)

/-- The sort key of `ci/evidence.py` line 70:
`(-(x.get("score") or 0), x.get("rank") or 9999)`; note `-(q or 0) = -q`
numerically for every rational `q`. -/
def evSnipKey (s : EvSnip) : ℚ × Nat :=
  (-(s.score), if s.rank = 0 then 9999 else s.rank)

/-- `page_by_url` construction (`ci/evidence.py` lines 48-53). -/
def pageByUrl (keep : List String) (pages : List ScoredPageIn) :
    List (String × ScoredPageIn) :=
  pages.foldl
    (fun d p =>
      let url := pyOr p.final_url p.url
      if url = "" || !keep.contains url then d else dictInsert d url p)
    []

/-- `snips_by_url` construction, keep-filtered (lines 55-67). -/
def snipsByUrl (keep : List String) (snips : List SnipIn) :
    List (String × List EvSnip) :=
  snips.foldl
    (fun d s =>
      if s.url = "" || !keep.contains s.url then d
      else groupAdd d s.url ⟨s.rank, s.score, s.text⟩)
    []

/-- `ci/evidence.py::build_evidence_packs` over already-loaded inputs;
returns the sequence of records written to `evidence_packs.jsonl`. -/
def build_evidence_packs (keep : List String) (pages : List ScoredPageIn)
    (snips : List SnipIn) (max_snippets_per_url max_full_text_chars : Nat) :
    List EvidencePack :=
  let pbu := pageByUrl keep pages
  let sbu := (snipsByUrl keep snips).map
    (fun kv => (kv.1, (pySortAscBy evSnipKey kv.2).take max_snippets_per_url))
  pbu.map (fun kv =>
    let p := kv.2
    let full0 := pyOr p.text_md (pyOr p.text "")
    let full_text :=
      if max_full_text_chars ≠ 0 && decide (max_full_text_chars < full0.length) then
        ⟨full0.data.take max_full_text_chars⟩ ++ "\n\n[TRUNCATED]\n"
      else full0
    { url := kv.1
      title := p.title
      meta_description := p.meta_description
      h1 := p.h1
      headings := p.headings
      jsonld_types := p.jsonld_types
      page_scores := ⟨p.capability, p.engineering, p.fluff, p.freshness, p.total, p.keep⟩
      full_text := full_text
      snippets := (dictGet sbu kv.1).getD [] })

/-! ## `ci/crawl.py::crawl_site` : the crawl loop -/

/-- Python `set.add` on the list model of a set. -/
def setInsert {α : Type} [DecidableEq α] (x : α) (s : List α) : List α :=
  if x ∈ s then s else s ++ [x]

/-- `allowed_netloc(urlparse(t).netloc, base, inc)`, with a failed parse
(`false`) never reached on canonical URLs. -/
def urlAllowed (base : String) (inc : Bool) (t : String) : Bool :=
  match pyUrlparse t with
  | none => false
  | some p => allowed_netloc p.netloc base inc

/-- The crawl-loop state of `crawl_site`.  `fetchLog` and `enqueuedLog` are
observation traces: `fetchLog` records each URL passed to `fetch_record`
(in order), `enqueuedLog` each URL appended to the frontier by link
discovery.  `pagesLog` is the sequence of records written to `pages.jsonl`.
`crashed` records an exception escaping the loop (only the uncaught
`ValueError` from `canonicalize`/`urlparse` can). -/
structure CrawlState where
  q : List String
  seen : List String
  edges : List (String × String)
  fetchLog : List String
  pagesLog : List PageRec
  enqueuedLog : List String
  pages_fetched : Nat
  skipped_seen : Nat
  skipped_external : Nat
  errors : Nat
  crashed : Bool
deriving DecidableEq, Repr

/-- The link-discovery loop (`crawl_site` lines 173-182): canonicalize each
target, drop disallowed hosts (counting `skipped_external`), record the edge,
and enqueue targets not yet seen. -/
def processLinks (base : String) (inc : Bool) (src : String) :
    List String → CrawlState → CrawlState
  | [], st => st
  | tgt :: rest, st =>
    match canonicalize tgt with
    | none => { st with crashed := true }
    | some t =>
      match pyUrlparse t with
      | none => { st with crashed := true }
      | some tp =>
        if !allowed_netloc tp.netloc base inc then
          processLinks base inc src rest { st with skipped_external := st.skipped_external + 1 }
        else
          let st1 := { st with edges := setInsert (src, t) st.edges }
          let st2 :=
            if t ∈ st1.seen then st1
            else { st1 with q := st1.q ++ [t], enqueuedLog := st1.enqueuedLog ++ [t] }
          processLinks base inc src rest st2

/-- One iteration of the `while` loop in `crawl_site` (lines 141-185).
`fetchO` is the external fetch (HTTP + optional rendered fallback); `none`
models `fetch_record` raising, which the loop catches and counts. -/
def crawl_step (fetchO : String → Option FetchResult) (base : String) (inc : Bool)
    (st : CrawlState) : CrawlState :=
  match st.q with
  | [] => st
  | u :: rest =>
    match canonicalize u with
    | none => { st with q := rest, crashed := true }
    | some url =>
      if url ∈ st.seen then
        { st with q := rest, skipped_seen := st.skipped_seen + 1 }
      else
        match pyUrlparse url with
        | none => { st with q := rest, crashed := true }
        | some up =>
          if !allowed_netloc up.netloc base inc then
            { st with q := rest, skipped_external := st.skipped_external + 1 }
          else
            let st1 :=
              { st with q := rest, seen := url :: st.seen, fetchLog := st.fetchLog ++ [url] }
            match fetchO url with
            | none => { st1 with errors := st1.errors + 1 }
            | some r =>
              match fetch_record url r with
              | none => { st1 with errors := st1.errors + 1 }
              | some pr =>
                processLinks base inc pr.final_url pr.links
                  { st1 with
                    pagesLog := st1.pagesLog ++ [pr]
                    pages_fetched := st1.pages_fetched + 1 }

/-- The crawl loop, fuel-indexed: run while the frontier is non-empty, the
page budget is not reached, and no exception has escaped. -/
def crawl_loop (fetchO : String → Option FetchResult) (base : String) (inc : Bool)
    (max_pages : Nat) : Nat → CrawlState → CrawlState
  | 0, st => st
  | fuel + 1, st =>
    if !st.q.isEmpty && decide (st.pages_fetched < max_pages) && !st.crashed then
      crawl_loop fetchO base inc max_pages fuel (crawl_step fetchO base inc st)
    else st

/-- The initial crawl state: the frontier holds the canonicalized seed. -/
def initCrawlState (seed : String) : CrawlState :=
  ⟨[seed], [], [], [], [], [], 0, 0, 0, 0, false⟩

/-! ## `ci/summarize_xlsx_openai.py::call_openai_with_retries` -/

/-- Outcome of one `call_openai` attempt, supplied by an oracle indexed by
the 1-based attempt number. -/
inductive CallOutcome where
  | ok (text : String)
  | httpError (code : Nat)
  | netError
  | runtimeError
deriving DecidableEq, Repr

/-- Result of `call_openai_with_retries`: success, an immediately re-raised
`HTTPError`, an immediately re-raised `RuntimeError`, or the final
`RuntimeError` after the retry budget is exhausted. -/
inductive RetryOutcome where
  | success (text : String)
  | failedHttp (code : Nat)
  | failedRuntime
  | exhausted
deriving DecidableEq, Repr

/-- `if e.code in (400, 401, 403, 404, 422)`. -/
def nonRetryableCodes : List Nat := [400, 401, 403, 404, 422]

/-- `if e.code in (429, 500, 502, 503, 504)`. -/
def retryableCodes : List Nat := [429, 500, 502, 503, 504]

/-- The retry loop body (`for attempt in range(1, retries + 1)`), recording
each `time.sleep` duration.  `jitter` is the `random.uniform(0, 0.25)`
oracle, indexed by attempt; `backoff` starts at 1.0 and is updated to
`min(backoff * 1.8, 20)` after each sleep. -/
def retryLoop (oracle : Nat → CallOutcome) (jitter : Nat → ℚ) :
    Nat → Nat → ℚ → List ℚ → RetryOutcome × List ℚ
  | _, 0, _, sleeps => (.exhausted, sleeps)
  | attempt, rem + 1, backoff, sleeps =>
    match oracle attempt with
    | .ok t => (.success t, sleeps)
    | .httpError code =>
      if code ∈ nonRetryableCodes then (.failedHttp code, sleeps)
      else if code ∈ retryableCodes then
        retryLoop oracle jitter (attempt + 1) rem (min (backoff * 1.8) 20)
          (sleeps ++ [backoff + jitter attempt])
      else (.failedHttp code, sleeps)
    | .netError =>
      retryLoop oracle jitter (attempt + 1) rem (min (backoff * 1.8) 20)
        (sleeps ++ [backoff + jitter attempt])
    | .runtimeError => (.failedRuntime, sleeps)

/-- `ci/summarize_xlsx_openai.py::call_openai_with_retries` (default
`retries=6` at every call site). -/
def call_openai_with_retries (oracle : Nat → CallOutcome) (jitter : Nat → ℚ)
    (retries : Nat) : RetryOutcome × List ℚ :=
  retryLoop oracle jitter 1 retries 1 []

/-! ## Derived / claim-side definitions -/

/-- The path component as it appears in `canonicalize`'s output: the parsed
path with one trailing slash stripped unless the path is exactly `/`. -/
def canonPath (p : UrlParts) : String :=
  if p.path.data.getLast? = some '/' ∧ p.path ≠ "/" then ⟨p.path.data.dropLast⟩ else p.path

/-- Stated from the claim's words (claim C3): a URL "whose path is under
`/blog`", i.e. the path is `/blog` itself or starts with `/blog/`.  Compare
with the source's `is_blog`, which also matches any path merely *containing*
`/blog/` (and any path starting with `/blog`, such as `/blogfoo`). -/
def specBlogUnder (url : String) : Option Bool :=
  (path url).map (fun pa => pa = "/blog" || startsWithL "/blog/".data pa.data)

/-- Paragraphs paired with their 0-based original position. -/
def withIdx {α : Type} : List α → Nat → List (α × Nat)
  | [], _ => []
  | x :: xs, n => (x, n) :: withIdx xs (n + 1)

/-- The intended snippet order (claim C8): strictly descending score, ties
broken by the original paragraph position. -/
def snipRel (a b : (ℚ × String) × Nat) : Prop :=
  b.1.1 < a.1.1 ∨ (a.1.1 = b.1.1 ∧ a.2 < b.2)

/-! # Theorems

General helper lemmas first, then one main theorem per claim (with its
counterexample / witness companions). -/

/-! ## Helper lemmas on lists and the Python string order -/

theorem mem_dictInsert {α : Type} {d : List (String × α)} {k : String} {v : α}
    {kv : String × α} (h : kv ∈ dictInsert d k v) : kv.1 = k ∨ kv ∈ d := by
  unfold dictInsert at h
  split at h
  · obtain ⟨kv0, hkv0, heq⟩ := List.mem_map.mp h
    by_cases hk : kv0.1 = k
    · rw [if_pos hk] at heq
      left
      rw [← heq]
    · rw [if_neg hk] at heq
      right
      rw [← heq]
      exact hkv0
  · rcases List.mem_append.mp h with h' | h'
    · right
      exact h'
    · left
      rw [List.mem_singleton.mp h']

theorem pyStrLtL_trans :
    ∀ a b c : List Char, pyStrLtL a b = true → pyStrLtL b c = true → pyStrLtL a c = true := by
  intro a
  induction a with
  | nil =>
    intro b c h1 h2
    cases b with
    | nil => simp [pyStrLtL] at h1
    | cons y ys =>
      cases c with
      | nil => simp [pyStrLtL] at h2
      | cons z zs => simp [pyStrLtL]
  | cons x xs ih =>
    intro b c h1 h2
    cases b with
    | nil => simp [pyStrLtL] at h1
    | cons y ys =>
      cases c with
      | nil => simp [pyStrLtL] at h2
      | cons z zs =>
        simp only [pyStrLtL] at h1 h2 ⊢
        by_cases hxy : x = y <;> by_cases hyz : y = z
        · subst hxy; subst hyz
          simp only [if_pos rfl] at h1 h2 ⊢
          exact ih ys zs h1 h2
        · subst hxy
          simp only [if_pos rfl, if_neg hyz] at h2 ⊢
          exact h2
        · subst hyz
          simp only [if_pos rfl, if_neg hxy] at h1 ⊢
          exact h1
        · simp only [if_neg hxy, if_neg hyz, decide_eq_true_eq] at h1 h2
          have hxz : x < z := lt_trans h1 h2
          have : x ≠ z := ne_of_lt hxz
          simp [if_neg this, hxz]

theorem pyStrLtL_total :
    ∀ a b : List Char, pyStrLtL a b = true ∨ pyStrLtL b a = true ∨ a = b := by
  intro a
  induction a with
  | nil =>
    intro b
    cases b with
    | nil => right; right; rfl
    | cons y ys => left; simp [pyStrLtL]
  | cons x xs ih =>
    intro b
    cases b with
    | nil => right; left; simp [pyStrLtL]
    | cons y ys =>
      by_cases hxy : x = y
      · subst hxy
        rcases ih ys with h | h | h
        · left; simp [pyStrLtL, h]
        · right; left; simp [pyStrLtL, h]
        · right; right; rw [h]
      · rcases lt_trichotomy x y with h | h | h
        · left; simp [pyStrLtL, if_neg hxy, h]
        · exact absurd h hxy
        · right; left
          have hyx : y ≠ x := fun e => hxy e.symm
          simp [pyStrLtL, if_neg hyx, h]

theorem pyStrLtL_iff_lex :
    ∀ a b : List Char, pyStrLtL a b = true ↔ List.Lex (· < ·) a b := by
  intro a
  induction a with
  | nil =>
    intro b
    cases b with
    | nil => simp [pyStrLtL]
    | cons y ys => simp [pyStrLtL]; exact List.Lex.nil
  | cons x xs ih =>
    intro b
    cases b with
    | nil =>
      simp only [pyStrLtL, Bool.false_eq_true, false_iff]
      intro h
      cases h
    | cons y ys =>
      by_cases hxy : x = y
      · subst hxy
        simp only [pyStrLtL, eq_self_iff_true, if_true]
        rw [ih ys]
        constructor
        · exact fun h => List.Lex.cons h
        · intro h
          cases h with
          | cons h => exact h
          | rel h => exact absurd h (lt_irrefl x)
      · simp only [pyStrLtL, if_neg hxy, decide_eq_true_eq]
        constructor
        · exact fun h => List.Lex.rel h
        · intro h
          cases h with
          | cons h => exact absurd rfl hxy
          | rel h => exact h

theorem insertStr_perm (x : String) (l : List String) : List.Perm (insertStr x l) (x :: l) := by
  induction l with
  | nil => exact List.Perm.refl _
  | cons y ys ih =>
    unfold insertStr
    split
    · exact (ih.cons y).trans (List.Perm.swap x y ys)
    · exact List.Perm.refl _

theorem pySortStr_perm (l : List String) : List.Perm (pySortStr l) l := by
  induction l with
  | nil => exact List.Perm.refl _
  | cons x xs ih => exact (insertStr_perm x (pySortStr xs)).trans (ih.cons x)

theorem insertStr_sorted (x : String) (l : List String)
    (hl : l.Pairwise (fun a b => pyStrLt a b = true)) (hx : x ∉ l) :
    (insertStr x l).Pairwise (fun a b => pyStrLt a b = true) := by
  induction l with
  | nil => simp [insertStr]
  | cons y ys ih =>
    have hy : ∀ z ∈ ys, pyStrLt y z = true := fun z hz => (List.pairwise_cons.mp hl).1 z hz
    have hys : ys.Pairwise (fun a b => pyStrLt a b = true) := (List.pairwise_cons.mp hl).2
    have hxys : x ∉ ys := fun h => hx (List.mem_cons_of_mem y h)
    have hxy : x ≠ y := fun h => hx (h ▸ List.mem_cons_self y ys)
    unfold insertStr
    split
    · rename_i hcmp
      refine List.pairwise_cons.mpr ⟨?_, ih hys hxys⟩
      intro z hz
      rcases List.mem_cons.mp ((insertStr_perm x ys).mem_iff.mp hz) with h | h
      · rw [h]; exact hcmp
      · exact hy z h
    · rename_i hcmp
      have hxy' : pyStrLt x y = true := by
        rcases pyStrLtL_total x.data y.data with h | h | h
        · exact h
        · exact absurd h hcmp
        · exact absurd (by cases x; cases y; exact congrArg _ h) hxy
      refine List.pairwise_cons.mpr ⟨?_, hl⟩
      intro z hz
      rcases List.mem_cons.mp hz with h | h
      · rw [h]; exact hxy'
      · exact pyStrLtL_trans x.data y.data z.data hxy' (hy z h)

theorem pySortStr_sorted (l : List String) (hl : l.Nodup) :
    (pySortStr l).Pairwise (fun a b => pyStrLt a b = true) := by
  induction l with
  | nil => simp [pySortStr]
  | cons x xs ih =>
    have hx : x ∉ pySortStr xs := fun h =>
      (List.nodup_cons.mp hl).1 ((pySortStr_perm xs).mem_iff.mp h)
    exact insertStr_sorted x (pySortStr xs) (ih (List.nodup_cons.mp hl).2) hx

/-! ## C7 : `needs_browser` -/

/-- Claim C7: with the default thresholds `min_links = 10` and
`min_text_chars = 800`, `needs_browser r` is true iff the link count is
strictly below 10 or the markdown text is strictly shorter than 800
characters (so 9 links trigger it and 10 do not; 799 characters trigger it
and 800 do not). -/
theorem needs_browser_char :
    ∀ r : FetchResult,
      needs_browser r 10 800 = true ↔ (r.links_count < 10 ∨ r.text_md.length < 800) := by
  intro r
  by_cases h1 : r.links_count < 10 <;> by_cases h2 : r.text_md.length < 800 <;>
    simp [needs_browser, h1, h2]

/-! ## C6 : `fetch_record` text fields -/

/-- Claim C6 is a code bug: `fetch_record` overwrites `rec["text"]` with the
markdown-preferred text *before* copying it into `rec["text_plain"]`
(under the comment "keep plain text separately"), so for a fetch whose plain
extraction is `"PLAIN TEXT..."` and markdown extraction is `"MARKDOWN..."`,
the persisted `text_plain` equals the markdown rendering, not the plain one;
`text_len` is the length of the markdown-preferred text. -/
theorem fetch_record_overwrites_plain :
    (fetch_record "https://e.com/x"
        ⟨"https://e.com/x", 200, "text/html", "<html>", "PLAIN TEXT here", "MARKDOWN here",
          [], 0⟩).map PageRec.text_plain = some "MARKDOWN here"
    ∧ (fetch_record "https://e.com/x"
        ⟨"https://e.com/x", 200, "text/html", "<html>", "PLAIN TEXT here", "MARKDOWN here",
          [], 0⟩).map PageRec.text_md = some "MARKDOWN here"
    ∧ (fetch_record "https://e.com/x"
        ⟨"https://e.com/x", 200, "text/html", "<html>", "PLAIN TEXT here", "MARKDOWN here",
          [], 0⟩).map PageRec.text_len = some 13
    ∧ ("MARKDOWN here" : String) ≠ "PLAIN TEXT here" := by
  refine ⟨by decide, by decide, by decide, by decide⟩

/-! ## C2 : evidence packs only contain kept URLs -/

theorem pageByUrl_mem_keep (keep : List String) (pages : List ScoredPageIn) :
    ∀ kv ∈ pageByUrl keep pages, kv.1 ∈ keep := by
  unfold pageByUrl
  suffices h : ∀ (ps : List ScoredPageIn) (d : List (String × ScoredPageIn)),
      (∀ kv ∈ d, kv.1 ∈ keep) →
      ∀ kv ∈ ps.foldl
        (fun d p =>
          let url := pyOr p.final_url p.url
          if url = "" || !keep.contains url then d else dictInsert d url p) d,
        kv.1 ∈ keep by
    intro kv hkv
    exact h pages [] (by simp) kv hkv
  intro ps
  induction ps with
  | nil =>
    intro d hd kv hkv
    exact hd kv hkv
  | cons p ps ih =>
    intro d hd kv hkv
    rw [List.foldl_cons] at hkv
    refine ih _ ?_ kv hkv
    intro kv' hkv'
    dsimp only at hkv'
    split at hkv'
    · exact hd kv' hkv'
    · rename_i hcond
      rcases mem_dictInsert hkv' with h' | h'
      · rw [h']
        simp only [Bool.or_eq_true, decide_eq_true_eq, Bool.not_eq_true'] at hcond
        push_neg at hcond
        have hc : List.contains keep (pyOr p.final_url p.url) = true := by
          rcases Bool.eq_false_or_eq_true (List.contains keep (pyOr p.final_url p.url)) with
            ht | hf
          · exact ht
          · exact absurd hf hcond.2
        exact List.elem_iff.mp hc
      · exact hd kv' h'

/-- Claim C2: every record written to the evidence output has a URL present
in the keep-list; a scored page absent from the keep-list never appears,
even if snippets exist for it (the output iterates `page_by_url`, which is
keep-filtered before insertion). -/
theorem evidence_pack_urls_in_keep :
    ∀ (keep : List String) (pages : List ScoredPageIn) (snips : List SnipIn)
      (ms mc : Nat) (pack : EvidencePack),
      pack ∈ build_evidence_packs keep pages snips ms mc → pack.url ∈ keep := by
  intro keep pages snips ms mc pack h
  unfold build_evidence_packs at h
  obtain ⟨kv, hkv, heq⟩ := List.mem_map.mp h
  have h1 := pageByUrl_mem_keep keep pages kv hkv
  rw [← heq]
  exact h1

/-- Witness for C2 at a concrete input: the pack built for the kept page
`"https://a.com"` indeed carries a keep-listed URL. -/
theorem evidence_pack_urls_in_keep_witness :
    (⟨"https://a.com", "T", "", [], [], [], ⟨1, 0, 0, 1/2, 1, true⟩, "body", []⟩
        : EvidencePack).url ∈ ["https://a.com"] :=
  evidence_pack_urls_in_keep ["https://a.com"]
    [⟨"https://a.com", "https://a.com", "T", "", [], [], [], 1, 0, 0, 1/2, 1, true, "body", ""⟩]
    [] 25 40000 _ (by with_unfolding_all decide)

/-! ## C10 : the keep-list file -/

/-- Claim C10: the keep-list file holds each kept URL exactly once, in
strictly ascending code-point-lexicographic order, one per line (joined by
newlines, with a trailing newline when non-empty), and its content is the
empty string when nothing is kept (the file itself is created up-front, so
it exists even then). -/
theorem keep_file_content_spec :
    ∀ ks : List String,
      ((∀ u, u ∈ pySortStr ks.dedup ↔ u ∈ ks)
       ∧ (pySortStr ks.dedup).Nodup
       ∧ (pySortStr ks.dedup).Pairwise (fun a b => List.Lex (· < ·) a.data b.data)
       ∧ keep_file_content ks
           = String.intercalate "\n" (pySortStr ks.dedup)
             ++ (if ks.isEmpty then "" else "\n")
       ∧ keep_file_content [] = "") := by
  intro ks
  refine ⟨?_, ?_, ?_, rfl, rfl⟩
  · intro u
    exact (pySortStr_perm ks.dedup).mem_iff.trans (List.mem_dedup)
  · exact (pySortStr_perm ks.dedup).nodup_iff.mpr (List.nodup_dedup ks)
  · exact (pySortStr_sorted ks.dedup (List.nodup_dedup ks)).imp
      (fun h => (pyStrLtL_iff_lex _ _).mp h)

/-- Witness for C10 at a concrete list with a duplicate. -/
theorem keep_file_content_spec_witness :
    (("a" ∈ pySortStr (List.dedup ["b", "a", "b"]) ↔ "a" ∈ ["b", "a", "b"])
     ∧ keep_file_content [] = "") :=
  ⟨(keep_file_content_spec ["b", "a", "b"]).1 "a",
    (keep_file_content_spec ["b", "a", "b"]).2.2.2.2⟩

/-! ## C9 : the retrying LLM-call wrapper -/

/-- The two status tuples of the source are disjoint. -/
theorem retryable_not_nonRetryable (code : Nat) (h : code ∈ retryableCodes) :
    code ∉ nonRetryableCodes := by
  simp only [retryableCodes, List.mem_cons, List.not_mem_nil, or_false] at h
  rcases h with h | h | h | h | h <;> subst h <;> decide

/-- An oracle answering every attempt with a retryable outcome (a status in
the retryable tuple, or a network/timeout error) exhausts the whole budget,
sleeping once per attempt. -/
theorem retryLoop_exhausts (oracle : Nat → CallOutcome) (jitter : Nat → ℚ)
    (h : ∀ n, oracle n = .netError ∨ ∃ code ∈ retryableCodes, oracle n = .httpError code) :
    ∀ (rem attempt : Nat) (backoff : ℚ) (acc : List ℚ),
      (retryLoop oracle jitter attempt rem backoff acc).1 = .exhausted
      ∧ (retryLoop oracle jitter attempt rem backoff acc).2.length = acc.length + rem := by
  intro rem
  induction rem with
  | zero => intro attempt backoff acc; simp [retryLoop]
  | succ n ih =>
    intro attempt backoff acc
    have hstep :
        retryLoop oracle jitter attempt (n + 1) backoff acc
          = retryLoop oracle jitter (attempt + 1) n (min (backoff * 1.8) 20)
              (acc ++ [backoff + jitter attempt]) := by
      rcases h attempt with h1 | ⟨code, hcode, h1⟩
      · rw [retryLoop, h1]
      · rw [retryLoop, h1]
        dsimp only
        rw [if_neg (retryable_not_nonRetryable _ hcode), if_pos hcode]
    rw [hstep]
    refine ⟨(ih _ _ _).1, ?_⟩
    rw [(ih _ _ _).2]
    simp
    omega

theorem retryLoop_sleeps_bounded (oracle : Nat → CallOutcome) (jitter : Nat → ℚ)
    (hj : ∀ n, 0 ≤ jitter n ∧ jitter n ≤ 1/4) :
    ∀ (rem attempt : Nat) (backoff : ℚ) (acc : List ℚ),
      backoff ≤ 20 → (∀ s ∈ acc, s ≤ 20 + 1/4) →
      ∀ s ∈ (retryLoop oracle jitter attempt rem backoff acc).2, s ≤ 20 + 1/4 := by
  intro rem
  induction rem with
  | zero =>
    intro attempt backoff acc _ hacc s hs
    simp only [retryLoop] at hs
    exact hacc s hs
  | succ n ih =>
    intro attempt backoff acc hb hacc s hs
    have hnew : ∀ s' ∈ acc ++ [backoff + jitter attempt], s' ≤ 20 + 1/4 := by
      intro s' hs'
      rcases List.mem_append.mp hs' with h' | h'
      · exact hacc s' h'
      · rw [List.mem_singleton.mp h']
        exact add_le_add hb (hj attempt).2
    rw [retryLoop] at hs
    rcases horacle : oracle attempt with t | code | _ | _ <;> simp only [horacle] at hs
    · exact hacc s hs
    · by_cases hm : code ∈ nonRetryableCodes
      · rw [if_pos hm] at hs
        exact hacc s hs
      · rw [if_neg hm] at hs
        by_cases hm2 : code ∈ retryableCodes
        · rw [if_pos hm2] at hs
          exact ih _ _ _ (min_le_right _ _) hnew s hs
        · rw [if_neg hm2] at hs
          exact hacc s hs
    · exact ih _ _ _ (min_le_right _ _) hnew s hs
    · exact hacc s hs

/-- Claim C9, amended: the wrapper raises immediately, with no sleep, on
*any* HTTP status outside the retryable tuple `429/500/502/503/504` — the
explicitly non-retryable codes and the "unexpected" branch (e.g. 501, 505)
re-raise alike; it retries, with a backoff sleep, on every code of the
retryable tuple and on network/timeout errors (first attempt retryable and
second successful yields the success after exactly one sleep `1 + j₁`); an
oracle that is retryable on every attempt exhausts the budget with exactly
`retries` sleeps and fails; every sleep is bounded by the cap 20 plus
maximal jitter; and three consecutive 503s followed by a success yield the
success after exactly 3 sleeps `1+j₁ < 1.8+j₂ < 3.24+j₃`, each strictly
increasing and below the cap. -/
theorem call_openai_with_retries_spec :
    ∀ jitter : Nat → ℚ, (∀ n, 0 ≤ jitter n ∧ jitter n ≤ 1/4) →
      ((∀ (oracle : Nat → CallOutcome) (retries code : Nat),
          1 ≤ retries → oracle 1 = .httpError code → code ∉ retryableCodes →
          call_openai_with_retries oracle jitter retries = (.failedHttp code, []))
       ∧ (∀ (t : String) (oracle : Nat → CallOutcome) (retries : Nat),
            2 ≤ retries →
            (oracle 1 = .netError ∨ ∃ code ∈ retryableCodes, oracle 1 = .httpError code) →
            oracle 2 = .ok t →
            call_openai_with_retries oracle jitter retries = (.success t, [1 + jitter 1]))
       ∧ (∀ (oracle : Nat → CallOutcome) (retries : Nat),
            (∀ n, oracle n = .netError ∨ ∃ code ∈ retryableCodes, oracle n = .httpError code) →
            (call_openai_with_retries oracle jitter retries).1 = .exhausted
            ∧ (call_openai_with_retries oracle jitter retries).2.length = retries)
       ∧ (∀ (oracle : Nat → CallOutcome) (retries : Nat) (s : ℚ),
            s ∈ (call_openai_with_retries oracle jitter retries).2 → s ≤ 20 + 1/4)
       ∧ (∀ (t : String) (oracle : Nat → CallOutcome),
            (∀ n, n ≤ 3 → oracle n = .httpError 503) → oracle 4 = .ok t →
            call_openai_with_retries oracle jitter 6
              = (.success t, [1 + jitter 1, 9/5 + jitter 2, 81/25 + jitter 3])
            ∧ 1 + jitter 1 < 9/5 + jitter 2
            ∧ 9/5 + jitter 2 < 81/25 + jitter 3
            ∧ 81/25 + jitter 3 < 20)) := by
  intro jitter hj
  refine ⟨?_, ?_, ?_, ?_, ?_⟩
  · intro oracle retries code hr h1 hm2
    cases retries with
    | zero => omega
    | succ n =>
      by_cases hm : code ∈ nonRetryableCodes
      · rw [call_openai_with_retries, retryLoop, h1]
        dsimp only
        rw [if_pos hm]
      · rw [call_openai_with_retries, retryLoop, h1]
        dsimp only
        rw [if_neg hm, if_neg hm2]
  · intro t oracle retries hr hout h2
    cases retries with
    | zero => omega
    | succ n =>
      cases n with
      | zero => omega
      | succ m =>
        rcases hout with h1 | ⟨code, hcode, h1⟩
        · rw [call_openai_with_retries, retryLoop, h1]
          dsimp only
          rw [retryLoop, h2]
          simp
        · rw [call_openai_with_retries, retryLoop, h1]
          dsimp only
          rw [if_neg (retryable_not_nonRetryable _ hcode), if_pos hcode]
          rw [retryLoop, h2]
          simp
  · intro oracle retries h
    have := retryLoop_exhausts oracle jitter h retries 1 1 []
    rw [call_openai_with_retries]
    simpa using this
  · intro oracle retries s hs
    exact retryLoop_sleeps_bounded oracle jitter hj retries 1 1 [] (by norm_num)
      (by simp) s hs
  · intro t oracle h503 hok
    have h1 := h503 1 (by norm_num)
    have h2 := h503 2 (by norm_num)
    have h3 := h503 3 (by norm_num)
    have e1 : min ((1 : ℚ) * 1.8) 20 = 9/5 := by norm_num [min_def]
    have e2 : min ((9 : ℚ)/5 * 1.8) 20 = 81/25 := by norm_num [min_def]
    have hrun :
        call_openai_with_retries oracle jitter 6
          = (.success t, [1 + jitter 1, 9/5 + jitter 2, 81/25 + jitter 3]) := by
      rw [call_openai_with_retries, retryLoop, h1]
      dsimp only
      rw [if_neg (by norm_num [nonRetryableCodes]), if_pos (by norm_num [retryableCodes])]
      rw [retryLoop, h2]
      dsimp only
      rw [if_neg (by norm_num [nonRetryableCodes]), if_pos (by norm_num [retryableCodes])]
      rw [retryLoop, h3]
      dsimp only
      rw [if_neg (by norm_num [nonRetryableCodes]), if_pos (by norm_num [retryableCodes])]
      rw [retryLoop, hok]
      dsimp only
      rw [e1, e2]
      norm_num
    have j1 := hj 1
    have j2 := hj 2
    have j3 := hj 3
    refine ⟨hrun, by linarith, by linarith, by linarith⟩

/-- Witness for C9: a 505 raised at once with no sleep, a 429 retried once
then succeeding after one sleep, and the 503×3-then-success scenario, all
at concrete oracles and jitter. -/
theorem call_openai_with_retries_spec_witness :
    call_openai_with_retries (fun _ => .httpError 505) (fun _ => 1/8) 6
      = (.failedHttp 505, [])
    ∧ call_openai_with_retries (fun n => if n = 1 then .httpError 429 else .ok "ok")
        (fun _ => 1/8) 6
      = (.success "ok", [1 + 1/8])
    ∧ call_openai_with_retries (fun n => if n ≤ 3 then .httpError 503 else .ok "ok")
        (fun _ => 1/8) 6
      = (.success "ok", [1 + 1/8, 9/5 + 1/8, 81/25 + 1/8]) :=
  ⟨(call_openai_with_retries_spec (fun _ => 1/8) (fun _ => by norm_num)).1
      (fun _ => .httpError 505) 6 505 (by norm_num) rfl (by decide),
   (call_openai_with_retries_spec (fun _ => 1/8) (fun _ => by norm_num)).2.1 "ok"
      (fun n => if n = 1 then .httpError 429 else .ok "ok") 6 (by norm_num)
      (Or.inr ⟨429, by decide, rfl⟩) rfl,
   ((call_openai_with_retries_spec (fun _ => 1/8) (fun _ => by norm_num)).2.2.2.2 "ok"
      (fun n => if n ≤ 3 then .httpError 503 else .ok "ok")
      (fun n hn => by simp [hn]) (by norm_num)).1⟩

/-! ## C3 : the `keep` rule of `score_page` -/

/-- Counterexample to C3 as stated: the claim defines a blog URL as one
whose path is *under* `/blog`, but the source's `is_blog` also matches any
path merely containing `/blog/`.  For `https://x.com/news/blog/post` (not
under `/blog`) with empty content, the claim demands `keep = true`, yet
`score_page` returns `keep = false` (the code treats it as a blog page and
`capability + engineering = 0 < 2`). -/
theorem score_page_blog_counterexample :
    specBlogUnder "https://x.com/news/blog/post" = some false
    ∧ (score_page (fun _ => 0) "https://x.com/news/blog/post" "" [] "").map PageScores.keep
        = some false :=
  ⟨by decide, by with_unfolding_all decide⟩

/-- Claim C3, amended: `score_page` returns `keep = true` unconditionally
for every non-blog URL; for a blog URL it returns `keep = true` iff
`capability + engineering ≥ 2` and `fluff ≤ 4` — where, amended, a blog URL
is one whose path starts with `/blog` *or contains* `/blog/` (the source's
`is_blog`), not only one whose path is under `/blog`. -/
theorem score_page_keep_rule :
    ∀ (fresh : String → ℚ) (url title : String) (headings : List String) (text : String)
      (ps : PageScores),
      score_page fresh url title headings text = some ps →
      ((is_blog url = some false → ps.keep = true)
       ∧ (is_blog url = some true →
            (ps.keep = true ↔ (2 ≤ ps.capability + ps.engineering ∧ ps.fluff ≤ 4)))
       ∧ (∀ pa, path url = some pa →
            is_blog url
              = some (startsWithL "/blog".data pa.data || containsL "/blog/".data pa.data))) := by
  intro fresh url title headings text ps h
  simp only [score_page] at h
  cases hb : is_blog url with
  | none =>
    rw [hb] at h
    simp at h
  | some blog =>
    rw [hb] at h
    simp only [Option.some.injEq] at h
    refine ⟨?_, ?_, ?_⟩
    · intro hfalse
      have hbf := Option.some.inj hfalse
      rw [← h]
      dsimp only
      rw [hbf]
      simp
    · intro htrue
      have hbt := Option.some.inj htrue
      rw [← h]
      dsimp only
      rw [hbt]
      simp only [if_true, Bool.and_eq_true, decide_eq_true_eq]
    · intro pa hpa
      have hdef : is_blog url
          = (path url).map
              (fun pa => startsWithL "/blog".data pa.data || containsL "/blog/".data pa.data) :=
        rfl
      rw [← hb, hdef, hpa]
      rfl

/-- Witness for C3 at a concrete non-blog URL with empty content. -/
theorem score_page_keep_rule_witness :
    (⟨0, 0, 0, 0, (0 + 0) - 1.2 * 0, true⟩ : PageScores).keep = true :=
  (score_page_keep_rule (fun _ => 0) "https://x.com/about" "T" [] ""
      ⟨0, 0, 0, 0, (0 + 0) - 1.2 * 0, true⟩ (by with_unfolding_all decide)).1
    (by decide)

/-! ## C8 : snippet ranking -/

theorem insertDescBy_perm {α : Type} (key : α → ℚ) (x : α) (l : List α) :
    List.Perm (insertDescBy key x l) (x :: l) := by
  induction l with
  | nil => exact List.Perm.refl _
  | cons y ys ih =>
    unfold insertDescBy
    split
    · exact (ih.cons y).trans (List.Perm.swap x y ys)
    · exact List.Perm.refl _

theorem pySortDescBy_perm {α : Type} (key : α → ℚ) (l : List α) :
    List.Perm (pySortDescBy key l) l := by
  induction l with
  | nil => exact List.Perm.refl _
  | cons x xs ih => exact (insertDescBy_perm key x (pySortDescBy key xs)).trans (ih.cons x)

theorem insertDescBy_map {α β : Type} (g : α → β) (key : β → ℚ) (x : α) (l : List α) :
    (insertDescBy (fun a => key (g a)) x l).map g = insertDescBy key (g x) (l.map g) := by
  induction l with
  | nil => rfl
  | cons y ys ih =>
    by_cases hc : key (g x) < key (g y)
    · simp only [insertDescBy, if_pos hc, List.map_cons, List.map]
      rw [ih]
    · simp only [insertDescBy, if_neg hc, List.map_cons, List.map]

theorem pySortDescBy_map {α β : Type} (g : α → β) (key : β → ℚ) (l : List α) :
    (pySortDescBy (fun a => key (g a)) l).map g = pySortDescBy key (l.map g) := by
  induction l with
  | nil => rfl
  | cons x xs ih =>
    simp only [pySortDescBy, List.map_cons]
    rw [← ih, insertDescBy_map]

theorem insertDescBy_sorted_snipRel (x : (ℚ × String) × Nat) (l : List ((ℚ × String) × Nat))
    (hl : l.Pairwise snipRel) (hx : ∀ y ∈ l, x.2 < y.2) :
    (insertDescBy (fun t => t.1.1) x l).Pairwise snipRel := by
  induction l with
  | nil => simp [insertDescBy]
  | cons y ys ih =>
    obtain ⟨hy, hys⟩ := List.pairwise_cons.mp hl
    by_cases hc : x.1.1 < y.1.1
    · simp only [insertDescBy, if_pos hc]
      refine List.pairwise_cons.mpr
        ⟨?_, ih hys (fun z hz => hx z (List.mem_cons_of_mem y hz))⟩
      intro z hz
      rcases List.mem_cons.mp ((insertDescBy_perm _ x ys).mem_iff.mp hz) with h | h
      · rw [h]; exact Or.inl hc
      · exact hy z h
    · simp only [insertDescBy, if_neg hc]
      refine List.pairwise_cons.mpr ⟨?_, hl⟩
      intro z hz
      rcases List.mem_cons.mp hz with h | h
      · rw [h]
        rcases lt_trichotomy y.1.1 x.1.1 with hlt | heq | hgt
        · exact Or.inl hlt
        · exact Or.inr ⟨heq.symm, hx y (List.mem_cons_self y ys)⟩
        · exact absurd hgt hc
      · rcases hy z h with h1 | h1
        · exact Or.inl (lt_of_lt_of_le h1 (le_of_not_lt hc))
        · rcases lt_or_eq_of_le (le_of_not_lt hc) with h2 | h2
          · exact Or.inl (h1.1 ▸ h2)
          · exact Or.inr ⟨h2.symm.trans h1.1, hx z (List.mem_cons_of_mem y h)⟩

theorem pySortDescBy_sorted_snipRel (l : List ((ℚ × String) × Nat))
    (hl : l.Pairwise (fun a b => a.2 < b.2)) :
    (pySortDescBy (fun t => t.1.1) l).Pairwise snipRel := by
  induction l with
  | nil => simp [pySortDescBy]
  | cons x xs ih =>
    obtain ⟨hx, hxs⟩ := List.pairwise_cons.mp hl
    refine insertDescBy_sorted_snipRel x _ (ih hxs) ?_
    intro y hy
    exact hx y ((pySortDescBy_perm _ xs).mem_iff.mp hy)

theorem withIdx_map_fst {α : Type} : ∀ (l : List α) (n : Nat), (withIdx l n).map Prod.fst = l
  | [], _ => rfl
  | x :: xs, n => by simp [withIdx, withIdx_map_fst xs (n + 1)]

theorem mem_withIdx_ge {α : Type} :
    ∀ (l : List α) (n : Nat) (y : α × Nat), y ∈ withIdx l n → n ≤ y.2 := by
  intro l
  induction l with
  | nil => intro n y h; simp [withIdx] at h
  | cons x xs ih =>
    intro n y h
    rcases List.mem_cons.mp h with h' | h'
    · rw [h']
    · exact Nat.le_of_succ_le (ih (n + 1) y h')

theorem withIdx_pairwise {α : Type} :
    ∀ (l : List α) (n : Nat), (withIdx l n).Pairwise (fun a b => a.2 < b.2) := by
  intro l
  induction l with
  | nil => intro n; simp [withIdx]
  | cons x xs ih =>
    intro n
    refine List.pairwise_cons.mpr ⟨?_, ih (n + 1)⟩
    intro y hy
    exact Nat.lt_of_succ_le (mem_withIdx_ge xs (n + 1) y hy)

theorem mem_enumFrom_snd {α : Type} :
    ∀ (l : List α) (n : Nat) (it : Nat × α), it ∈ l.enumFrom n → it.2 ∈ l := by
  intro l
  induction l with
  | nil => intro n it h; simp [List.enumFrom] at h
  | cons x xs ih =>
    intro n it h
    rcases List.mem_cons.mp h with h' | h'
    · rw [h']; exact List.mem_cons_self x xs
    · exact List.mem_cons_of_mem x (ih (n + 1) it h')

theorem enumFrom_rank_map (url title : String) :
    ∀ (l : List (ℚ × String)) (n : Nat),
      ((l.enumFrom n).map
          (fun it => (⟨url, title, it.1, it.2.1, it.2.2⟩ : Snippet))).map Snippet.rank
        = List.range' n l.length := by
  intro l
  induction l with
  | nil => intro n; rfl
  | cons x xs ih =>
    intro n
    simp only [List.enumFrom, List.map_cons, List.length_cons, List.range']
    rw [List.cons.injEq]
    exact ⟨rfl, ih (n + 1)⟩

/-- Claim C8: for every page, the emitted snippets are exactly the page's
paragraphs sorted by strictly descending paragraph score with ties broken by
original order (`T` below is the index-decorated sort: it is a permutation
of the indexed paragraph list, sorted w.r.t. `snipRel`, and forgetting
indices gives the very list `page_snippets` ranks), truncated to `top_k`,
with 1-based ranks `1, 2, ...` assigned in that order; the paragraph score
uses fluff weight 1.4 and no freshness adjustment. -/
theorem page_snippets_spec :
    ∀ (url title text : String) (top_k : Nat),
      ((pySortDescBy (fun t => t.1.1)
          (withIdx ((split_paragraphs text).map (fun pa => (score_paragraph pa, pa))) 0)).Pairwise
          snipRel
       ∧ List.Perm
           (pySortDescBy (fun t => t.1.1)
             (withIdx ((split_paragraphs text).map (fun pa => (score_paragraph pa, pa))) 0))
           (withIdx ((split_paragraphs text).map (fun pa => (score_paragraph pa, pa))) 0)
       ∧ (pySortDescBy (fun t => t.1.1)
             (withIdx ((split_paragraphs text).map (fun pa => (score_paragraph pa, pa))) 0)).map
             Prod.fst
           = pySortDescBy Prod.fst
               ((split_paragraphs text).map (fun pa => (score_paragraph pa, pa)))
       ∧ page_snippets url title text top_k
           = ((((pySortDescBy (fun t => t.1.1)
                   (withIdx ((split_paragraphs text).map (fun pa => (score_paragraph pa, pa)))
                     0)).map Prod.fst).take top_k).enumFrom 1).map
               (fun it => (⟨url, title, it.1, it.2.1, it.2.2⟩ : Snippet))
       ∧ (page_snippets url title text top_k).map Snippet.rank
           = List.range' 1 (min top_k (split_paragraphs text).length)
       ∧ (∀ s ∈ page_snippets url title text top_k,
            s.score = score_paragraph s.text ∧ s.text ∈ split_paragraphs text)
       ∧ (∀ pa : String, score_paragraph pa
            = term_score pa CAPABILITY_TERMS 1 + term_score pa ENGINEERING_SIGNALS 1.2
              - 1.4 * term_score pa FLUFF_TERMS 1)) := by
  intro url title text top_k
  set paras := split_paragraphs text with hparas
  set scored := paras.map (fun pa => (score_paragraph pa, pa)) with hscored
  set T := pySortDescBy (fun t => t.1.1) (withIdx scored 0) with hT
  have hmap : T.map Prod.fst = pySortDescBy Prod.fst scored := by
    have h1 := pySortDescBy_map (Prod.fst : (ℚ × String) × Nat → ℚ × String)
      (Prod.fst : ℚ × String → ℚ) (withIdx scored 0)
    rw [withIdx_map_fst] at h1
    exact h1
  have hsnip : page_snippets url title text top_k
      = (((T.map Prod.fst).take top_k).enumFrom 1).map
          (fun it => (⟨url, title, it.1, it.2.1, it.2.2⟩ : Snippet)) := by
    rw [hmap]
    rfl
  refine ⟨pySortDescBy_sorted_snipRel _ (withIdx_pairwise scored 0),
    pySortDescBy_perm _ _, hmap, hsnip, ?_, ?_, fun pa => rfl⟩
  · rw [hsnip, hmap, enumFrom_rank_map, List.length_take]
    have hlen : (pySortDescBy Prod.fst scored).length = paras.length := by
      rw [(pySortDescBy_perm Prod.fst scored).length_eq]
      exact List.length_map paras _
    rw [hlen]
  · intro s hs
    rw [hsnip] at hs
    obtain ⟨it, hit, hseq⟩ := List.mem_map.mp hs
    have h2 : it.2 ∈ (T.map Prod.fst).take top_k := mem_enumFrom_snd _ 1 it hit
    have h3 : it.2 ∈ T.map Prod.fst := List.take_subset top_k _ h2
    rw [hmap] at h3
    have h4 : it.2 ∈ scored := (pySortDescBy_perm Prod.fst scored).mem_iff.mp h3
    obtain ⟨pa, hpa, hpaeq⟩ := List.mem_map.mp h4
    rw [← hseq]
    dsimp only
    rw [← hpaeq]
    exact ⟨rfl, hpa⟩

/-- Witness for C8 at a concrete page. -/
theorem page_snippets_spec_witness :
    (page_snippets "u" "t" "" 5).map Snippet.rank
      = List.range' 1 (min 5 (split_paragraphs "").length) :=
  (page_snippets_spec "u" "t" "" 5).2.2.2.2.1

/-! ## C4 / C5 : `canonicalize` — parse/unparse machinery -/

theorem startsWithL_iff : ∀ (a l : List Char), startsWithL a l = true ↔ ∃ t, l = a ++ t := by
  intro a
  induction a with
  | nil =>
    intro l
    simp [startsWithL]
  | cons x xs ih =>
    intro l
    cases l with
    | nil =>
      simp only [startsWithL, Bool.false_eq_true, false_iff]
      rintro ⟨t, ht⟩
      simp at ht
    | cons c cs =>
      simp only [startsWithL, Bool.and_eq_true, decide_eq_true_eq, ih cs]
      constructor
      · rintro ⟨hx, t, ht⟩
        exact ⟨t, by rw [hx, ht]; rfl⟩
      · rintro ⟨t, ht⟩
        rw [List.cons_append] at ht
        exact ⟨(List.cons.inj ht).1.symm, t, (List.cons.inj ht).2⟩

theorem takeWhile_all_eq (p : Char → Bool) :
    ∀ l : List Char, (∀ c ∈ l, p c = true) → l.takeWhile p = l ∧ l.dropWhile p = [] := by
  intro l
  induction l with
  | nil => intro _; exact ⟨rfl, rfl⟩
  | cons x xs ih =>
    intro h
    have hx : p x = true := h x (List.mem_cons_self _ _)
    have := ih (fun c hc => h c (List.mem_cons_of_mem _ hc))
    simp [List.takeWhile_cons, List.dropWhile_cons, hx, this.1, this.2]

theorem takeWhile_append_stop (p : Char → Bool) :
    ∀ (a b : List Char), (∀ c ∈ a, p c = true) → (∀ c, b.head? = some c → p c = false) →
      (a ++ b).takeWhile p = a ∧ (a ++ b).dropWhile p = b := by
  intro a
  induction a with
  | nil =>
    intro b _ hb
    cases b with
    | nil => exact ⟨rfl, rfl⟩
    | cons c cs =>
      have hc := hb c rfl
      simp [List.takeWhile_cons, List.dropWhile_cons, hc]
  | cons x xs ih =>
    intro b ha hb
    have hx : p x = true := ha x (List.mem_cons_self _ _)
    have ih' := ih b (fun c hc => ha c (List.mem_cons_of_mem _ hc)) hb
    simp [List.takeWhile_cons, List.dropWhile_cons, hx, ih'.1, ih'.2]

theorem splitParamsL_fst_subset : ∀ l : List Char, (splitParamsL l).1 ⊆ l := by
  intro l
  unfold splitParamsL
  split
  · split
    · dsimp only
      split
      · intro c hc
        rcases List.mem_append.mp hc with h' | h'
        · exact List.take_subset _ l h'
        · have h1 : c ∈ (l.reverse.takeWhile (· ≠ '/')).reverse :=
            (List.takeWhile_sublist _).subset (by simpa using h')
          have h2 : c ∈ l.reverse := by
            rw [List.mem_reverse] at h1
            exact (List.takeWhile_sublist _).subset h1
          exact List.mem_reverse.mp h2
      · exact fun c hc => hc
    · exact fun c hc => (List.takeWhile_sublist _).subset hc
  · exact fun c hc => hc

/-- The suffix `b` taken by `_splitparams` behind the last `/` is strictly
shorter than a list that ends (or continues) with a failing character. -/
theorem takeWhile_append_last_le (p : Char → Bool) (c : Char) (hc : p c = false) :
    ∀ xs : List Char, (List.takeWhile p (xs ++ [c])).length ≤ xs.length := by
  intro xs
  induction xs with
  | nil => simp [List.takeWhile_cons, hc]
  | cons x t ih =>
    by_cases hx : p x = true
    · simp only [List.cons_append, List.takeWhile_cons, hx, if_true, List.length_cons]
      exact Nat.succ_le_succ ih
    · have hx' : p x = false := by
        rcases Bool.eq_false_or_eq_true (p x) with h | h
        · exact absurd h hx
        · exact h
      simp [List.cons_append, List.takeWhile_cons, hx']

theorem splitParamsL_slash_head (m : List Char) :
    ((splitParamsL ('/' :: m)).1).head? = some '/' := by
  unfold splitParamsL
  split
  · rw [if_pos (by simp)]
    dsimp only
    split
    · have hble : ((('/' :: m).reverse.takeWhile (· ≠ '/')).reverse).length ≤ m.length := by
        rw [List.length_reverse]
        have : ('/' :: m).reverse = m.reverse ++ ['/'] := by simp
        rw [this]
        have := takeWhile_append_last_le (· ≠ '/') '/' (by simp) m.reverse
        simpa using this
      have hn : 1 ≤ ('/' :: m).length - ((('/' :: m).reverse.takeWhile (· ≠ '/')).reverse).length := by
        simp only [List.length_cons]
        omega
      obtain ⟨k, hk⟩ := Nat.exists_eq_add_of_le hn
      rw [Nat.add_comm 1 k] at hk
      rw [hk, List.take_succ_cons]
      rfl
    · rfl
  · rfl

theorem splitParamsL_nil : splitParamsL [] = ([], []) := rfl

/-- `notDelim c = false` exactly for the three netloc delimiters. -/
theorem notDelim_false_iff (c : Char) :
    notDelim c = false ↔ (c = '/' ∨ c = '?' ∨ c = '#') := by
  constructor
  · intro h
    by_contra hcon
    push_neg at hcon
    simp [notDelim, hcon.1, hcon.2.1, hcon.2.2] at h
  · intro h
    rcases h with h | h | h <;> simp [notDelim, h]

theorem removeUnsafe_append (a b : List Char) :
    removeUnsafe (a ++ b) = removeUnsafe a ++ removeUnsafe b := by
  simp [removeUnsafe, List.filter_append]

theorem removeUnsafe_eq_self (l : List Char)
    (h : ∀ c ∈ l, (c = '\t' ∨ c = '\r' ∨ c = '\n') → False) : removeUnsafe l = l := by
  rw [removeUnsafe, List.filter_eq_self]
  intro a ha
  have h1 : ¬(a = '\t' ∨ a = '\r' ∨ a = '\n') := h a ha
  push_neg at h1
  simp [h1.1, h1.2.1, h1.2.2]

/-- Re-parsing after the scheme: `parseAfterScheme` on a `//`-led input,
written out stage by stage (pure computation, both sides definitionally
equal). -/
theorem parseAfterScheme_unfold (sch t : List Char) :
    parseAfterScheme sch ('/' :: '/' :: t)
      = (if ((t.takeWhile notDelim).contains '[' && !(t.takeWhile notDelim).contains ']')
            || ((t.takeWhile notDelim).contains ']' && !(t.takeWhile notDelim).contains '[') then
           none
         else
           some ⟨⟨sch⟩, ⟨t.takeWhile notDelim⟩,
             ⟨(splitParamsL
                 (((t.dropWhile notDelim).takeWhile (· ≠ '#')).takeWhile (· ≠ '?'))).1⟩,
             ⟨(splitParamsL
                 (((t.dropWhile notDelim).takeWhile (· ≠ '#')).takeWhile (· ≠ '?'))).2⟩,
             ⟨(((t.dropWhile notDelim).takeWhile (· ≠ '#')).dropWhile (· ≠ '?')).drop 1⟩,
             ⟨((t.dropWhile notDelim).dropWhile (· ≠ '#')).drop 1⟩⟩) := by
  have h2 : ('/' :: '/' :: t).take 2 = ['/', '/'] := rfl
  have h3 : ('/' :: '/' :: t).drop 2 = t := rfl
  unfold parseAfterScheme splitNetlocL
  rw [if_pos h2, h3]
  cases hc : ((t.takeWhile notDelim).contains '[' && !(t.takeWhile notDelim).contains ']')
      || ((t.takeWhile notDelim).contains ']' && !(t.takeWhile notDelim).contains '[') with
  | true =>
    rw [if_pos hc]
    rfl
  | false =>
    rw [if_neg (by rw [hc]; simp)]
    rfl

/-- Parsing a URL that starts with a literal `http://` / `https://` prefix:
the scheme splits off and the rest (with unsafe bytes removed) reaches the
netloc stage. -/
theorem parse_scheme_prefix (sch t : List Char)
    (hsch : sch = "http".data ∨ sch = "https".data) :
    pyUrlparse ⟨sch ++ "://".data ++ t⟩ = parseAfterScheme sch ('/' :: '/' :: removeUnsafe t) := by
  rcases hsch with h | h <;> subst h <;> rfl

theorem ensureScheme_shape (s : String) :
    ∃ t : List Char, (ensureScheme s).data = "http".data ++ "://".data ++ t
      ∨ (ensureScheme s).data = "https".data ++ "://".data ++ t := by
  unfold ensureScheme hasHttpScheme
  split
  · rename_i h
    simp only [Bool.or_eq_true] at h
    rcases h with h | h
    · obtain ⟨t, ht⟩ := (startsWithL_iff _ _).mp h
      refine ⟨t, Or.inl ?_⟩
      rw [ht]
      rfl
    · obtain ⟨t, ht⟩ := (startsWithL_iff _ _).mp h
      refine ⟨t, Or.inr ?_⟩
      rw [ht]
      rfl
  · exact ⟨s.data, Or.inr rfl⟩

theorem parseAfterScheme_reconstruct (sch netloc path2 : List Char)
    (hn : ∀ c ∈ netloc, notDelim c = true)
    (hbr : ((netloc.contains '[' && !netloc.contains ']')
        || (netloc.contains ']' && !netloc.contains '[')) = false)
    (hhead : ∀ c, path2.head? = some c → c = '/')
    (hpq : ∀ c ∈ path2, c ≠ '?' ∧ c ≠ '#')
    (hparams : splitParamsL path2 = (path2, [])) :
    parseAfterScheme sch ('/' :: '/' :: (netloc ++ path2))
      = some ⟨⟨sch⟩, ⟨netloc⟩, ⟨path2⟩, "", "", ""⟩ := by
  have hsplit := takeWhile_append_stop notDelim netloc path2 hn
    (fun c hc => by rw [hhead c hc]; rfl)
  have h1 := takeWhile_all_eq (· ≠ '#') path2 (fun c hc => by simpa using (hpq c hc).2)
  have h2 := takeWhile_all_eq (· ≠ '?') path2 (fun c hc => by simpa using (hpq c hc).1)
  rw [parseAfterScheme_unfold, hsplit.1, hsplit.2]
  rw [if_neg (by rw [hbr]; simp)]
  rw [h1.1, h1.2, h2.1, h2.2, hparams]
  rfl

theorem parseAfterScheme_shape (sch t' : List Char) (p : UrlParts)
    (hp : parseAfterScheme sch ('/' :: '/' :: t') = some p)
    (hclean : ∀ c ∈ t', (c = '\t' ∨ c = '\r' ∨ c = '\n') → False) :
    (p.scheme = ⟨sch⟩
     ∧ (∀ c ∈ p.netloc.data, notDelim c = true)
     ∧ (∀ c ∈ p.path.data, c ≠ '?' ∧ c ≠ '#')
     ∧ (p.path.data = [] ∨ p.path.data.head? = some '/')
     ∧ (∀ c ∈ p.netloc.data ++ p.path.data, (c = '\t' ∨ c = '\r' ∨ c = '\n') → False)
     ∧ ((p.netloc.data.contains '[' && !p.netloc.data.contains ']')
         || (p.netloc.data.contains ']' && !p.netloc.data.contains '[')) = false) := by
  rw [parseAfterScheme_unfold] at hp
  split at hp
  · exact absurd hp (by simp)
  · rename_i hbr
    have hpp := Option.some.inj hp
    rw [← hpp]
    dsimp only
    have hsubp : ∀ c ∈ (splitParamsL
        (((t'.dropWhile notDelim).takeWhile (· ≠ '#')).takeWhile (· ≠ '?'))).1, c ∈ t' := by
      intro c hc
      have s1 := splitParamsL_fst_subset _ hc
      have s2 := (List.takeWhile_sublist (· ≠ '?')).subset s1
      have s3 := (List.takeWhile_sublist (· ≠ '#')).subset s2
      exact (List.dropWhile_sublist notDelim).subset s3
    refine ⟨rfl, ?_, ?_, ?_, ?_, ?_⟩
    · intro c hc
      exact List.mem_takeWhile_imp hc
    · intro c hc
      have s1 := splitParamsL_fst_subset _ hc
      have h2 := List.mem_takeWhile_imp s1
      have h3 := List.mem_takeWhile_imp ((List.takeWhile_sublist (· ≠ '?')).subset s1)
      simp only [decide_eq_true_eq] at h2 h3
      exact ⟨h2, h3⟩
    · cases hr2 : t'.dropWhile notDelim with
      | nil =>
        left
        rfl
      | cons c m =>
        have hcnd : notDelim c = false := by
          have h0 := List.head?_dropWhile_not notDelim t'
          rw [hr2] at h0
          simpa using h0
        rcases (notDelim_false_iff c).mp hcnd with hc | hc | hc
        · right
          subst hc
          have e1 : List.takeWhile (· ≠ '#') ('/' :: m) = '/' :: List.takeWhile (· ≠ '#') m := by
            simp [List.takeWhile_cons]
          have e2 : List.takeWhile (· ≠ '?') ('/' :: List.takeWhile (· ≠ '#') m)
              = '/' :: List.takeWhile (· ≠ '?') (List.takeWhile (· ≠ '#') m) := by
            simp [List.takeWhile_cons]
          rw [e1, e2]
          exact splitParamsL_slash_head _
        · left
          subst hc
          have e1 : List.takeWhile (· ≠ '#') ('?' :: m) = '?' :: List.takeWhile (· ≠ '#') m := by
            simp [List.takeWhile_cons]
          have e2 : List.takeWhile (· ≠ '?') ('?' :: List.takeWhile (· ≠ '#') m) = [] := by
            simp [List.takeWhile_cons]
          rw [e1, e2]
          rfl
        · left
          subst hc
          have e1 : List.takeWhile (· ≠ '#') ('#' :: m) = [] := by
            simp [List.takeWhile_cons]
          rw [e1]
          rfl
    · intro c hc
      rcases List.mem_append.mp hc with h' | h'
      · exact hclean c ((List.takeWhile_sublist notDelim).subset h')
      · exact hclean c (hsubp c h')
    · rcases Bool.eq_false_or_eq_true ((((t'.takeWhile notDelim).contains '['
          && !(t'.takeWhile notDelim).contains ']')
          || ((t'.takeWhile notDelim).contains ']' && !(t'.takeWhile notDelim).contains '['))) with
        hf | ht
      · exact absurd hf hbr
      · exact ht

theorem str_of_data_nil (s : String) (h : s.data = []) : s = "" := by
  cases s
  simp only at h
  rw [h]

theorem canonicalize_split (u : String) (p : UrlParts) (v : String)
    (hp : pyUrlparse (ensureScheme (pyStrip u)) = some p)
    (hv : canonicalize u = some v)
    (hn : ∀ c ∈ p.netloc.data, notDelim c = true) :
    (((p.netloc = "" ∧ p.path = "") → v.data = (p.scheme.data ++ "://".data).dropLast)
     ∧ (¬(p.netloc = "" ∧ p.path = "") →
         v.data = p.scheme.data ++ "://".data ++ p.netloc.data ++ (canonPath p).data)) := by
  simp only [canonicalize] at hv
  rw [hp] at hv
  dsimp only at hv
  have hemp : ("" : String).data = [] := rfl
  constructor
  · rintro ⟨hn0, hp0⟩
    rw [hn0, hp0] at hv
    have hlast : (p.scheme.data ++ "://".data ++ ("" : String).data
        ++ ("" : String).data).getLast? = some '/' := by
      rw [hemp, List.append_nil, List.append_nil]
      rw [List.getLast?_append_of_ne_nil _ (by decide : ("://".data : List Char) ≠ [])]
      rfl
    split at hv
    · have hvv := (Option.some.inj hv).symm
      rw [hvv]
      dsimp only
      rw [List.append_nil, List.append_nil]
    · rename_i hcond
      exfalso
      apply hcond
      simp only [Bool.and_eq_true, decide_eq_true_eq]
      refine ⟨hlast, ?_⟩
      decide
  · intro hboth
    by_cases hpd : p.path.data = []
    · have hnd : p.netloc.data ≠ [] := by
        intro h0
        exact hboth ⟨str_of_data_nil _ h0, str_of_data_nil _ hpd⟩
      have hlast : (p.scheme.data ++ "://".data ++ p.netloc.data ++ p.path.data).getLast?
          = p.netloc.data.getLast? := by
        rw [hpd, List.append_nil]
        rw [List.getLast?_append_of_ne_nil _ hnd]
      have hnot : ¬((p.scheme.data ++ "://".data ++ p.netloc.data ++ p.path.data).getLast?
          = some '/') := by
        rw [hlast]
        intro h0
        have hmem := List.mem_of_mem_getLast? h0
        have hslash := hn _ hmem
        simp [notDelim] at hslash
      split at hv
      · rename_i hcond
        simp only [Bool.and_eq_true, decide_eq_true_eq] at hcond
        exact absurd hcond.1 hnot
      · have hvv := (Option.some.inj hv).symm
        have hcp : canonPath p = p.path := by
          rw [canonPath, if_neg]
          rintro ⟨h1, h2⟩
          rw [hpd] at h1
          exact absurd h1 (by decide)
        rw [hvv, hcp]
    · have hlast : (p.scheme.data ++ "://".data ++ p.netloc.data ++ p.path.data).getLast?
          = p.path.data.getLast? := List.getLast?_append_of_ne_nil _ hpd
      split at hv
      · rename_i hcond
        simp only [Bool.and_eq_true, decide_eq_true_eq] at hcond
        have hvv := (Option.some.inj hv).symm
        have hcp : canonPath p = ⟨p.path.data.dropLast⟩ := by
          rw [canonPath, if_pos ⟨by rw [← hlast]; exact hcond.1, hcond.2⟩]
        rw [hvv, hcp]
        dsimp only
        rw [List.dropLast_append_of_ne_nil _ hpd]
      · rename_i hcond
        simp only [Bool.and_eq_true, decide_eq_true_eq] at hcond
        have hvv := (Option.some.inj hv).symm
        have hcp : canonPath p = p.path := by
          rw [canonPath, if_neg]
          rintro ⟨h1, h2⟩
          exact hcond ⟨by rw [hlast]; exact h1, h2⟩
        rw [hvv, hcp]

/-- Characters removed by `removeUnsafe` never survive the filter. -/
theorem removeUnsafe_clean (l : List Char) :
    ∀ c ∈ removeUnsafe l, (c = '\t' ∨ c = '\r' ∨ c = '\n') → False := by
  intro c hc hbad
  have h2 := (List.mem_filter.mp hc).2
  rcases hbad with h | h | h <;> subst h <;> simp at h2

/-- Shape of any successful parse of `ensureScheme (pyStrip u)`: the scheme
is `http` or `https`, the netloc holds no delimiter, the path holds no `?`
or `#` and is empty or `/`-led, no `\t\r\n` survives, and the netloc
bracket check passed. -/
theorem pyUrlparse_ensure_shape (u : String) (p : UrlParts)
    (hp : pyUrlparse (ensureScheme (pyStrip u)) = some p) :
    ((p.scheme.data = "http".data ∨ p.scheme.data = "https".data)
     ∧ (∀ c ∈ p.netloc.data, notDelim c = true)
     ∧ (∀ c ∈ p.path.data, c ≠ '?' ∧ c ≠ '#')
     ∧ (p.path.data = [] ∨ p.path.data.head? = some '/')
     ∧ (∀ c ∈ p.netloc.data ++ p.path.data, (c = '\t' ∨ c = '\r' ∨ c = '\n') → False)
     ∧ ((p.netloc.data.contains '[' && !p.netloc.data.contains ']')
         || (p.netloc.data.contains ']' && !p.netloc.data.contains '[')) = false) := by
  obtain ⟨t, hsch⟩ := ensureScheme_shape (pyStrip u)
  rcases hsch with hcase | hcase
  · have he2 : ensureScheme (pyStrip u) = ⟨"http".data ++ "://".data ++ t⟩ := by
      rw [← hcase]
    rw [he2, parse_scheme_prefix _ t (Or.inl rfl)] at hp
    obtain ⟨h1, h2, h3, h4, h5, h6⟩ :=
      parseAfterScheme_shape _ _ p hp (removeUnsafe_clean t)
    refine ⟨Or.inl ?_, h2, h3, h4, h5, h6⟩
    rw [h1]
  · have he2 : ensureScheme (pyStrip u) = ⟨"https".data ++ "://".data ++ t⟩ := by
      rw [← hcase]
    rw [he2, parse_scheme_prefix _ t (Or.inr rfl)] at hp
    obtain ⟨h1, h2, h3, h4, h5, h6⟩ :=
      parseAfterScheme_shape _ _ p hp (removeUnsafe_clean t)
    refine ⟨Or.inr ?_, h2, h3, h4, h5, h6⟩
    rw [h1]

/-- Every character of `canonPath p` is a character of `p.path`. -/
theorem canonPath_subset (p : UrlParts) : ∀ c ∈ (canonPath p).data, c ∈ p.path.data := by
  intro c hc
  rw [canonPath] at hc
  split at hc
  · dsimp only at hc
    exact (List.dropLast_sublist _).subset hc
  · exact hc

/-- If the parsed path is empty or `/`-led, so is `canonPath`. -/
theorem canonPath_head (p : UrlParts)
    (h : p.path.data = [] ∨ p.path.data.head? = some '/') :
    ∀ c, (canonPath p).data.head? = some c → c = '/' := by
  intro c hc
  rw [canonPath] at hc
  split at hc
  · rename_i hcond
    dsimp only at hc
    cases hpd : p.path.data with
    | nil =>
      rw [hpd] at hc
      simp at hc
    | cons x rest =>
      have hx : x = '/' := by
        rcases h with h0 | h0
        · rw [hpd] at h0
          exact absurd h0 (by simp)
        · rw [hpd] at h0
          simpa using h0
      cases rest with
      | nil =>
        exfalso
        apply hcond.2
        have hps : p.path = ⟨p.path.data⟩ := rfl
        rw [hps, hpd, hx]
      | cons y rest2 =>
        rw [hpd, List.dropLast_cons₂] at hc
        simp only [List.head?_cons] at hc
        rw [← Option.some.inj hc]
        exact hx
  · rcases h with h0 | h0
    · rw [h0] at hc
      simp at hc
    · rw [h0] at hc
      exact (Option.some.inj hc).symm

/-- `canonPath p` can only be empty when the parsed path itself is empty. -/
theorem canonPath_nil (p : UrlParts) (hnil : (canonPath p).data = []) : p.path = "" := by
  rw [canonPath] at hnil
  split at hnil
  · rename_i hcond
    dsimp only at hnil
    cases hpd : p.path.data with
    | nil => exact str_of_data_nil _ hpd
    | cons x rest =>
      cases rest with
      | nil =>
        exfalso
        apply hcond.2
        have hx : x = '/' := by
          rw [hpd] at hcond
          simpa using hcond.1
        have hps : p.path = ⟨p.path.data⟩ := rfl
        rw [hps, hpd, hx]
      | cons y rest2 =>
        rw [hpd, List.dropLast_cons₂] at hnil
        simp at hnil
  · exact str_of_data_nil _ hnil

/-- A string of the form `scheme://netloc + path2` whose pieces satisfy the
parse invariants is a fixed point of `canonicalize`, provided the final
trailing-slash test comes out false. -/
theorem canonicalize_fixed (sch netloc cp : List Char) (v : String)
    (hs : sch = "http".data ∨ sch = "https".data)
    (hvd : v.data = sch ++ "://".data ++ netloc ++ cp)
    (hstrip : pyStrip v = v)
    (hn : ∀ c ∈ netloc, notDelim c = true)
    (hbr : ((netloc.contains '[' && !netloc.contains ']')
        || (netloc.contains ']' && !netloc.contains '[')) = false)
    (hhead : ∀ c, cp.head? = some c → c = '/')
    (hpq : ∀ c ∈ cp, c ≠ '?' ∧ c ≠ '#')
    (hclean : ∀ c ∈ netloc ++ cp, (c = '\t' ∨ c = '\r' ∨ c = '\n') → False)
    (hparams : splitParamsL cp = (cp, []))
    (hgl : ¬((sch ++ "://".data ++ netloc ++ cp).getLast? = some '/')
        ∨ (⟨cp⟩ : String) = "/") :
    canonicalize v = some v := by
  have hv2 : v = ⟨sch ++ "://".data ++ netloc ++ cp⟩ := by rw [← hvd]
  have hv3 : v = ⟨sch ++ "://".data ++ (netloc ++ cp)⟩ := by
    rw [hv2]
    congr 1
    rw [List.append_assoc]
  have hhttp : hasHttpScheme v = true := by
    rw [hasHttpScheme, Bool.or_eq_true]
    rcases hs with h | h
    · left
      apply (startsWithL_iff _ _).mpr
      refine ⟨netloc ++ cp, ?_⟩
      rw [hv3, h]
      rfl
    · right
      apply (startsWithL_iff _ _).mpr
      refine ⟨netloc ++ cp, ?_⟩
      rw [hv3, h]
      rfl
  have hens : ensureScheme v = v := by
    rw [ensureScheme, if_pos hhttp]
  have hpp : pyUrlparse v = some ⟨⟨sch⟩, ⟨netloc⟩, ⟨cp⟩, "", "", ""⟩ := by
    rw [hv3, parse_scheme_prefix sch (netloc ++ cp) hs, removeUnsafe_eq_self _ hclean]
    exact parseAfterScheme_reconstruct sch netloc cp hn hbr hhead hpq hparams
  simp only [canonicalize]
  rw [hstrip, hens, hpp]
  dsimp only
  split
  · rename_i hcond
    exfalso
    simp only [Bool.and_eq_true, decide_eq_true_eq] at hcond
    rcases hgl with h | h
    · exact h hcond.1
    · exact hcond.2 h
  · rw [hv2]

/-- Counterexample to C4 as stated: the claim says the query string is
preserved as-is, but `canonicalize` rebuilds the URL from scheme, netloc
and path only, so the query `q=1` of
`https://example.com/p?q=1` is stripped from the output. -/
theorem canonicalize_query_counterexample :
    pyUrlparse (ensureScheme (pyStrip "https://example.com/p?q=1"))
      = some ⟨"https", "example.com", "/p", "", "q=1", ""⟩
    ∧ canonicalize "https://example.com/p?q=1" = some "https://example.com/p"
    ∧ containsL "q=1".data "https://example.com/p".data = false :=
  ⟨by decide, by decide, by decide⟩

/-- Claim C4, amended: for every input that `canonicalize` maps to `v`
(parsing to `p`), the output contains no `?` and no `#` at all — the query
is *dropped*, not preserved, and so is the fragment — and (whenever scheme
and netloc do not both come out empty, the only degenerate case) `v` is
exactly `scheme://netloc` followed by `canonPath p`, i.e. the parsed path
with a single trailing `/` stripped unless the path is exactly `/`. -/
theorem canonicalize_drops_query_and_fragment (u v : String) (p : UrlParts)
    (hp : pyUrlparse (ensureScheme (pyStrip u)) = some p)
    (hv : canonicalize u = some v) :
    (('?' ∉ v.data ∧ '#' ∉ v.data)
     ∧ (¬(p.netloc = "" ∧ p.path = "") →
         v.data = p.scheme.data ++ "://".data ++ p.netloc.data ++ (canonPath p).data)) := by
  obtain ⟨hs, hn, hpq, hhd, hus, hbr⟩ := pyUrlparse_ensure_shape u p hp
  have hsplit := canonicalize_split u p v hp hv hn
  refine ⟨?_, hsplit.2⟩
  by_cases hc0 : (p.netloc = "" ∧ p.path = "")
  · have hd := hsplit.1 hc0
    constructor
    · intro hmem
      rw [hd] at hmem
      rcases hs with h | h <;> rw [h] at hmem <;> exact absurd hmem (by decide)
    · intro hmem
      rw [hd] at hmem
      rcases hs with h | h <;> rw [h] at hmem <;> exact absurd hmem (by decide)
  · have hd := hsplit.2 hc0
    constructor
    · intro hmem
      rw [hd] at hmem
      rcases List.mem_append.mp hmem with hmem | hmem
      · rcases List.mem_append.mp hmem with hmem | hmem
        · rcases List.mem_append.mp hmem with hmem | hmem
          · rcases hs with h | h <;> rw [h] at hmem <;> exact absurd hmem (by decide)
          · exact absurd hmem (by decide)
        · exact absurd (hn _ hmem) (by decide)
      · exact (hpq _ (canonPath_subset p _ hmem)).1 rfl
    · intro hmem
      rw [hd] at hmem
      rcases List.mem_append.mp hmem with hmem | hmem
      · rcases List.mem_append.mp hmem with hmem | hmem
        · rcases List.mem_append.mp hmem with hmem | hmem
          · rcases hs with h | h <;> rw [h] at hmem <;> exact absurd hmem (by decide)
          · exact absurd hmem (by decide)
        · exact absurd (hn _ hmem) (by decide)
      · exact (hpq _ (canonPath_subset p _ hmem)).2 rfl

/-- Witness for the amended C4 theorem at the concrete input
`https://example.com/p?q=1#frag`, whose query and fragment both vanish. -/
theorem canonicalize_drops_query_and_fragment_witness :
    pyUrlparse (ensureScheme (pyStrip "https://example.com/p?q=1#frag"))
      = some ⟨"https", "example.com", "/p", "", "q=1", "frag"⟩
    ∧ canonicalize "https://example.com/p?q=1#frag" = some "https://example.com/p"
    ∧ (('?' ∉ "https://example.com/p".data ∧ '#' ∉ "https://example.com/p".data)
       ∧ (¬(("example.com" : String) = "" ∧ ("/p" : String) = "") →
           "https://example.com/p".data
             = "https".data ++ "://".data ++ "example.com".data
               ++ (canonPath ⟨"https", "example.com", "/p", "", "q=1", "frag"⟩).data)) :=
  ⟨by decide, by decide,
    canonicalize_drops_query_and_fragment "https://example.com/p?q=1#frag"
      "https://example.com/p" ⟨"https", "example.com", "/p", "", "q=1", "frag"⟩
      (by decide) (by decide)⟩

/-- Counterexample to C5 as stated: `canonicalize` is not idempotent.  On
`https://a.com/x//` it strips one trailing slash per application, so a
second application changes the result again. -/
theorem canonicalize_idem_counterexample :
    canonicalize "https://a.com/x//" = some "https://a.com/x/"
    ∧ canonicalize "https://a.com/x/" = some "https://a.com/x"
    ∧ ((canonicalize "https://a.com/x//").bind canonicalize
        ≠ canonicalize "https://a.com/x//") :=
  ⟨by decide, by decide, by decide⟩

/-- Claim C5, amended: `canonicalize` is idempotent on an output `v` whose
parse `p` is non-degenerate, provided `v` is already whitespace-stripped,
the canonical path does not itself end in a stray `/`, and the canonical
path exposes no new `;params` segment — each proviso matching one of the
concrete non-idempotence families. -/
theorem canonicalize_idem_amended (u v : String) (p : UrlParts)
    (hp : pyUrlparse (ensureScheme (pyStrip u)) = some p)
    (hv : canonicalize u = some v)
    (hnp : ¬(p.netloc = "" ∧ p.path = ""))
    (hstrip : pyStrip v = v)
    (hsl : (canonPath p).data.getLast? = some '/' → canonPath p = "/")
    (hparams : splitParamsL (canonPath p).data = ((canonPath p).data, [])) :
    canonicalize v = some v := by
  obtain ⟨hs, hn, hpq, hhd, hus, hbr⟩ := pyUrlparse_ensure_shape u p hp
  have hdd : v.data = p.scheme.data ++ "://".data ++ p.netloc.data ++ (canonPath p).data :=
    (canonicalize_split u p v hp hv hn).2 hnp
  have hclean2 : ∀ c ∈ p.netloc.data ++ (canonPath p).data,
      (c = '\t' ∨ c = '\r' ∨ c = '\n') → False := by
    intro c hc hbad
    rcases List.mem_append.mp hc with hm | hm
    · exact hus c (List.mem_append.mpr (Or.inl hm)) hbad
    · exact hus c (List.mem_append.mpr (Or.inr (canonPath_subset p c hm))) hbad
  have hgl : ¬((p.scheme.data ++ "://".data ++ p.netloc.data
        ++ (canonPath p).data).getLast? = some '/')
      ∨ (⟨(canonPath p).data⟩ : String) = "/" := by
    by_cases hgl0 : (p.scheme.data ++ "://".data ++ p.netloc.data
        ++ (canonPath p).data).getLast? = some '/'
    · right
      by_cases hcp0 : (canonPath p).data = []
      · exfalso
        have hpath0 : p.path = "" := canonPath_nil p hcp0
        have hnl0 : p.netloc.data ≠ [] := fun h0 => hnp ⟨str_of_data_nil _ h0, hpath0⟩
        rw [hcp0, List.append_nil] at hgl0
        rw [List.getLast?_append_of_ne_nil _ hnl0] at hgl0
        exact absurd (hn _ (List.mem_of_mem_getLast? hgl0)) (by decide)
      · have hgl2 : (canonPath p).data.getLast? = some '/' := by
          rw [List.getLast?_append_of_ne_nil _ hcp0] at hgl0
          exact hgl0
        exact hsl hgl2
    · left
      exact hgl0
  exact canonicalize_fixed p.scheme.data p.netloc.data (canonPath p).data v hs hdd hstrip hn
    hbr (canonPath_head p hhd) (fun c hc => hpq c (canonPath_subset p c hc)) hclean2
    hparams hgl

/-- Witness for the amended C5 theorem: `https://example.com/a/`
canonicalizes to `https://example.com/a`, which `canonicalize` then leaves
unchanged. -/
theorem canonicalize_idem_amended_witness :
    pyUrlparse (ensureScheme (pyStrip "https://example.com/a/"))
      = some ⟨"https", "example.com", "/a/", "", "", ""⟩
    ∧ canonicalize "https://example.com/a/" = some "https://example.com/a"
    ∧ ¬(("example.com" : String) = "" ∧ ("/a/" : String) = "")
    ∧ pyStrip "https://example.com/a" = "https://example.com/a"
    ∧ ((canonPath ⟨"https", "example.com", "/a/", "", "", ""⟩).data.getLast? = some '/'
        → canonPath ⟨"https", "example.com", "/a/", "", "", ""⟩ = "/")
    ∧ splitParamsL (canonPath ⟨"https", "example.com", "/a/", "", "", ""⟩).data
        = ((canonPath ⟨"https", "example.com", "/a/", "", "", ""⟩).data, [])
    ∧ canonicalize "https://example.com/a" = some "https://example.com/a" :=
  ⟨by decide, by decide, by decide, by decide, by decide, by decide,
    canonicalize_idem_amended "https://example.com/a/" "https://example.com/a"
      ⟨"https", "example.com", "/a/", "", "", ""⟩ (by decide) (by decide) (by decide)
      (by decide) (by decide) (by decide)⟩

/-! ## C1 : crawl-loop invariants -/

set_option maxHeartbeats 2000000 in
theorem processLinks_logs (base : String) (inc : Bool) (src : String) :
    ∀ (links : List String) (st : CrawlState),
      ((processLinks base inc src links st).fetchLog = st.fetchLog
       ∧ (processLinks base inc src links st).seen = st.seen) := by
  intro links
  induction links with
  | nil => intro st; exact ⟨rfl, rfl⟩
  | cons tgt rest ih =>
    intro st
    simp only [processLinks]
    cases canonicalize tgt with
    | none => exact ⟨rfl, rfl⟩
    | some t =>
      dsimp only
      cases pyUrlparse t with
      | none => exact ⟨rfl, rfl⟩
      | some tp =>
        dsimp only
        cases ha : allowed_netloc tp.netloc base inc with
        | false =>
          simp only [ha, Bool.not_false, if_true]
          exact ih _
        | true =>
          simp only [ha, Bool.not_true, Bool.false_eq_true, if_false]
          by_cases hseen : t ∈ st.seen
          · simp only [hseen, if_pos]
            exact ih _
          · simp only [hseen, if_neg, not_false_eq_true]
            exact ih _

set_option maxHeartbeats 2000000 in
theorem processLinks_enqueued (base : String) (inc : Bool) (src : String) :
    ∀ (links : List String) (st : CrawlState),
      (∀ t ∈ st.enqueuedLog, urlAllowed base inc t = true) →
      ∀ t ∈ (processLinks base inc src links st).enqueuedLog, urlAllowed base inc t = true := by
  intro links
  induction links with
  | nil => intro st h; exact h
  | cons tgt rest ih =>
    intro st h
    simp only [processLinks]
    cases canonicalize tgt with
    | none => exact h
    | some t =>
      dsimp only
      cases hp : pyUrlparse t with
      | none => exact h
      | some tp =>
        dsimp only
        cases ha : allowed_netloc tp.netloc base inc with
        | false =>
          simp only [Bool.not_false, if_true]
          exact ih _ h
        | true =>
          simp only [Bool.not_true, Bool.false_eq_true, if_false]
          by_cases hseen : t ∈ st.seen
          · simp only [hseen, if_pos]
            exact ih _ h
          · simp only [hseen, if_neg, not_false_eq_true]
            refine ih _ ?_
            intro t' ht'
            rcases List.mem_append.mp ht' with h' | h'
            · exact h t' h'
            · rw [List.mem_singleton.mp h']
              simp only [urlAllowed, hp]
              exact ha

set_option maxHeartbeats 2000000 in
theorem crawl_step_inv (fetchO : String → Option FetchResult) (base : String) (inc : Bool)
    (st : CrawlState)
    (h1 : ∀ t ∈ st.enqueuedLog, urlAllowed base inc t = true)
    (h2 : st.fetchLog.Nodup)
    (h3 : ∀ u ∈ st.fetchLog, u ∈ st.seen) :
    ((∀ t ∈ (crawl_step fetchO base inc st).enqueuedLog, urlAllowed base inc t = true)
     ∧ (crawl_step fetchO base inc st).fetchLog.Nodup
     ∧ (∀ u ∈ (crawl_step fetchO base inc st).fetchLog,
          u ∈ (crawl_step fetchO base inc st).seen)) := by
  simp only [crawl_step]
  cases hq : st.q with
  | nil => exact ⟨h1, h2, h3⟩
  | cons u rest =>
    dsimp only
    cases hc : canonicalize u with
    | none => exact ⟨h1, h2, h3⟩
    | some url =>
      dsimp only
      by_cases hseen : url ∈ st.seen
      · simp only [hseen, if_pos]
        exact ⟨h1, h2, h3⟩
      · simp only [hseen, if_neg, not_false_eq_true]
        cases hp : pyUrlparse url with
        | none => exact ⟨h1, h2, h3⟩
        | some up =>
          dsimp only
          cases ha : allowed_netloc up.netloc base inc with
          | false =>
            simp only [Bool.not_false, if_true]
            exact ⟨h1, h2, h3⟩
          | true =>
            simp only [Bool.not_true, Bool.false_eq_true, if_false]
            have h2' : (st.fetchLog ++ [url]).Nodup := by
              rw [List.nodup_append]
              refine ⟨h2, List.nodup_singleton url, ?_⟩
              intro a ha1 ha2
              rw [List.mem_singleton.mp ha2] at ha1
              exact hseen (h3 url ha1)
            have h3' : ∀ u' ∈ st.fetchLog ++ [url], u' ∈ url :: st.seen := by
              intro u' hu'
              rcases List.mem_append.mp hu' with h' | h'
              · exact List.mem_cons_of_mem url (h3 u' h')
              · rw [List.mem_singleton.mp h']
                exact List.mem_cons_self url st.seen
            cases hf : fetchO url with
            | none => exact ⟨h1, h2', h3'⟩
            | some r =>
              dsimp only
              cases hr : fetch_record url r with
              | none => exact ⟨h1, h2', h3'⟩
              | some pr =>
                dsimp only
                have hlog := processLinks_logs base inc pr.final_url pr.links
                  { st with
                    q := rest
                    seen := url :: st.seen
                    fetchLog := st.fetchLog ++ [url]
                    pagesLog := st.pagesLog ++ [pr]
                    pages_fetched := st.pages_fetched + 1 }
                refine ⟨?_, ?_, ?_⟩
                · exact processLinks_enqueued base inc pr.final_url pr.links _ h1
                · rw [hlog.1]
                  exact h2'
                · rw [hlog.1, hlog.2]
                  exact h3'

theorem crawl_loop_inv (fetchO : String → Option FetchResult) (base : String) (inc : Bool)
    (max_pages : Nat) :
    ∀ (fuel : Nat) (st : CrawlState),
      (∀ t ∈ st.enqueuedLog, urlAllowed base inc t = true) →
      st.fetchLog.Nodup →
      (∀ u ∈ st.fetchLog, u ∈ st.seen) →
      ((∀ t ∈ (crawl_loop fetchO base inc max_pages fuel st).enqueuedLog,
          urlAllowed base inc t = true)
       ∧ (crawl_loop fetchO base inc max_pages fuel st).fetchLog.Nodup) := by
  intro fuel
  induction fuel with
  | zero => intro st h1 h2 _; exact ⟨h1, h2⟩
  | succ n ih =>
    intro st h1 h2 h3
    rw [crawl_loop]
    split
    · obtain ⟨g1, g2, g3⟩ := crawl_step_inv fetchO base inc st h1 h2 h3
      exact ih _ g1 g2 g3
    · exact ⟨h1, h2⟩

/-- Claim C1: starting from any loop state whose traces satisfy the
invariant (trivially true of the initial state), after any number of loop
iterations (a) every URL ever appended to the frontier by link discovery
passes `allowed_netloc` on its parsed host against the configured base and
subdomain flag, (b) the sequence of URLs handed to `fetch_record` has no
duplicates — no URL is ever fetched twice — and (c) one step from a state
whose dequeued head canonicalizes to an already-visited URL only pops the
queue and increments `skipped_seen`: nothing is fetched, logged or
enqueued. -/
theorem crawl_no_disallowed_enqueue_no_refetch :
    ∀ (fetchO : String → Option FetchResult) (base : String) (inc : Bool)
      (max_pages fuel : Nat) (st : CrawlState),
      (∀ t ∈ st.enqueuedLog, urlAllowed base inc t = true) →
      st.fetchLog.Nodup →
      (∀ u ∈ st.fetchLog, u ∈ st.seen) →
      ((∀ t ∈ (crawl_loop fetchO base inc max_pages fuel st).enqueuedLog,
          urlAllowed base inc t = true)
       ∧ (crawl_loop fetchO base inc max_pages fuel st).fetchLog.Nodup
       ∧ (∀ u rest cu, st.q = u :: rest → canonicalize u = some cu → cu ∈ st.seen →
            crawl_step fetchO base inc st
              = { st with q := rest, skipped_seen := st.skipped_seen + 1 })) := by
  intro fetchO base inc max_pages fuel st h1 h2 h3
  obtain ⟨g1, g2⟩ := crawl_loop_inv fetchO base inc max_pages fuel st h1 h2 h3
  refine ⟨g1, g2, ?_⟩
  intro u rest cu hq hc hcu
  simp only [crawl_step, hq, hc]
  rw [if_pos hcu]

/-- Witness for C1: a step on a concrete state whose head is already seen
only pops the queue and counts `skipped_seen`. -/
theorem crawl_no_disallowed_enqueue_no_refetch_witness :
    crawl_step (fun _ => none) "example.com" true
        ⟨["https://example.com", "u2"], ["https://example.com"], [],
          ["https://example.com"], [], [], 1, 0, 0, 0, false⟩
      = ⟨["u2"], ["https://example.com"], [], ["https://example.com"], [], [], 1, 1, 0, 0,
          false⟩ :=
  (crawl_no_disallowed_enqueue_no_refetch (fun _ => none) "example.com" true 5 2
      ⟨["https://example.com", "u2"], ["https://example.com"], [],
        ["https://example.com"], [], [], 1, 0, 0, 0, false⟩
      (by simp) (by decide) (by decide)).2.2
    "https://example.com" ["u2"] "https://example.com" rfl (by decide) (by decide)

set_option maxRecDepth 20000 in
/-- Counterexample to C9 as stated: a 501 response — a 5xx — is *not*
retried: the wrapper re-raises it immediately with zero sleeps (second
conjunct: 503 in the same position *is* retried and the call succeeds). -/
theorem retry_5xx_counterexample :
    call_openai_with_retries (fun n => if n = 1 then .httpError 501 else .ok "done")
        (fun _ => 0) 6 = (.failedHttp 501, [])
    ∧ (call_openai_with_retries (fun n => if n = 1 then .httpError 503 else .ok "done")
        (fun _ => 0) 6).1 = .success "done" :=
  ⟨by with_unfolding_all decide, by with_unfolding_all decide⟩
